import Mathlib

/-!
Verification of the TI-NERmerger span-tagging pipeline.

A tagged document is modelled as its list of lines (the Python code begins
every pass with `text.strip().split('\n')` and ends with `'\n'.join(...)`;
all interesting behaviour happens on the list of lines, so the embedding
works on `List Line` where a `Line` is its list of characters).

Python's partial operations are made explicit:
* `s.split(' ', 1)` yields two parts exactly when the line contains a space
  (`isTok`); `wordOf`/`labelOf` are the two parts.
* indexing (`label[0]`, `new_label[1]`, ...) returns `Option`, `none`
  modelling the `IndexError` the source would raise;
* functions that can raise are embedded with result type `Option _`,
  `none` meaning the Python function raises an exception.

Both source files define `nextLine` twice; the later, bounds-checked
definition (returning `None` at end of input) is the one bound at runtime,
and it is the one embedded here (`rest.find? isTok` from the current
position, `none` when no well-formed line follows).
-/

namespace TINER

abbrev Line := List Char

/-- String literal helper: a `Line` from a Lean string. -/
def lit (s : String) : Line := s.data

/-- Python `len(line.split(' ', 1)) == 2`: the line contains a space. -/
def isTok (l : Line) : Bool := l.any (· = ' ')

/-- First component of Python `line.split(' ', 1)`. -/
def wordOf (l : Line) : Line := l.takeWhile (· ≠ ' ')

/-- Second component of Python `line.split(' ', 1)` (everything after the
first space; `[]` when the line has no space). -/
def labelOf (l : Line) : Line := ((l.dropWhile (· ≠ ' ')).drop 1)

/-- Python `f"{word} {label}"`. -/
def mkLine (w lab : Line) : Line := w ++ ' ' :: lab

/-- Python `not line.split()`: the line is empty or whitespace-only. -/
def isBlank (l : Line) : Bool := l.all Char.isWhitespace

/-- Python `str.lower` (character-wise, ASCII). -/
def pyLower (l : Line) : Line := l.map Char.toLower

/-- Python `str.upper` (character-wise, ASCII). -/
def pyUpper (l : Line) : Line := l.map Char.toUpper

/-- Python `str.strip()`: drop whitespace from both ends. -/
def stripRight (l : Line) : Line := (l.reverse.dropWhile Char.isWhitespace).reverse

def stripWs (l : Line) : Line := stripRight (l.dropWhile Char.isWhitespace)

/-- The runtime `nextLine(lines, i)` (second definition in the source,
lines 421-427): the first following line that splits into two fields,
`none` at end of input.  `rest` is `lines[i+1:]`. -/
def nextTok (rest : List Line) : Option Line := rest.find? isTok

/-- Python `str.split(sep)` for a single-character separator (full split,
as used for `','`-separated label lists). -/
def splitOnChar (c : Char) (l : Line) : List Line :=
  l.foldr (fun ch acc =>
    match acc with
    | [] => [[ch]]
    | a :: as' => if ch = c then [] :: acc else (ch :: a) :: as') [[]]

/-- Python `str.split()` (split on whitespace runs, no empty parts). -/
def splitWs (l : Line) : List Line :=
  ((l.foldr (fun ch acc =>
      match acc with
      | [] => if ch.isWhitespace then [] else [[ch]]
      | a :: as' => if ch.isWhitespace then [] :: a :: as' else (ch :: a) :: as') [])
    ).filter (fun p => ¬ p.isEmpty)

/-- The accumulation loop shared by all passes that append exactly one
output line per input line: `none` when the body raises. -/
def mapOptM (f : α → Option β) : List α → Option (List β)
  | [] => some []
  | a :: as' => do
      let b ← f a
      let bs ← mapOptM f as'
      pure (b :: bs)

/-- The accumulation loop for passes whose body appends zero or more
output lines per input line (dropping is possible). -/
def flatOptM (f : α → Option (List β)) : List α → Option (List β)
  | [] => some []
  | a :: as' => do
      let b ← f a
      let bs ← flatOptM f as'
      pure (b ++ bs)

/-! ### Basic structural lemmas about line splitting -/

theorem wordOf_no_space (l : Line) : ∀ c ∈ wordOf l, c ≠ ' ' := by
  intro c hc
  have := List.mem_takeWhile_imp hc
  simpa using this

theorem recon (l : Line) (h : isTok l = true) :
    mkLine (wordOf l) (labelOf l) = l := by
  induction l with
  | nil => simp [isTok] at h
  | cons c t ih =>
    by_cases hc : c = ' '
    · subst hc
      show mkLine (List.takeWhile _ (' ' :: t)) (((' ' :: t).dropWhile _).drop 1) = ' ' :: t
      rw [List.takeWhile_cons_of_neg (by simp), List.dropWhile_cons_of_neg (by simp)]
      rfl
    · have ht : isTok t = true := by
        simp only [isTok, List.any_cons, Bool.or_eq_true, decide_eq_true_eq] at h ⊢
        rcases h with h | h
        · exact absurd h hc
        · exact h
      show mkLine (List.takeWhile _ (c :: t)) (((c :: t).dropWhile _).drop 1) = c :: t
      rw [List.takeWhile_cons_of_pos (by simpa using hc),
        List.dropWhile_cons_of_pos (by simpa using hc)]
      exact congrArg (c :: ·) (ih ht)

theorem wordOf_mkLine (w lab : Line) (hw : ∀ c ∈ w, c ≠ ' ') :
    wordOf (mkLine w lab) = w := by
  induction w with
  | nil =>
    show List.takeWhile _ (' ' :: lab) = []
    rw [List.takeWhile_cons_of_neg (by simp)]
  | cons c t ih =>
    have hc : c ≠ ' ' := hw c (by simp)
    show List.takeWhile _ (c :: (t ++ ' ' :: lab)) = c :: t
    rw [List.takeWhile_cons_of_pos (by simpa using hc)]
    exact congrArg (c :: ·) (ih (fun x hx => hw x (by simp [hx])))

theorem labelOf_mkLine (w lab : Line) (hw : ∀ c ∈ w, c ≠ ' ') :
    labelOf (mkLine w lab) = lab := by
  induction w with
  | nil =>
    show (List.dropWhile _ (' ' :: lab)).drop 1 = lab
    rw [List.dropWhile_cons_of_neg (by simp)]
    rfl
  | cons c t ih =>
    have hc : c ≠ ' ' := hw c (by simp)
    show (List.dropWhile _ (c :: (t ++ ' ' :: lab))).drop 1 = lab
    rw [List.dropWhile_cons_of_pos (by simpa using hc)]
    exact ih (fun x hx => hw x (by simp [hx]))

theorem isTok_mkLine (w lab : Line) : isTok (mkLine w lab) = true := by
  simp [isTok, mkLine]

theorem wordOf_mkLine_of_word (l : Line) (lab : Line) :
    wordOf (mkLine (wordOf l) lab) = wordOf l :=
  wordOf_mkLine _ _ (wordOf_no_space l)

theorem labelOf_mkLine_of_word (l : Line) (lab : Line) :
    labelOf (mkLine (wordOf l) lab) = lab :=
  labelOf_mkLine _ _ (wordOf_no_space l)

/-! ### TagFormatConverter: `convert_to_bio` (lines 31-53) -/

/-- One iteration of the `convert_to_bio` loop.  `label = label.strip()`,
then `bio, entity = label[0], label[2:]`; `label[0]` on an empty label
raises `IndexError` (embedded as `none`). -/
def bioLine (l : Line) : Option Line :=
  if isTok l then
    let lab := stripWs (labelOf l)
    match lab.head? with
    | none => none
    | some b =>
      let ent := lab.drop 2
      if b = 'E' then some (mkLine (wordOf l) ('I' :: '-' :: ent))
      else if b = 'S' then some (mkLine (wordOf l) ('B' :: '-' :: ent))
      else some (mkLine (wordOf l) lab)
  else some l

def convert_to_bio (doc : List Line) : Option (List Line) := mapOptM bioLine doc

/-! ### TagFormatConverter: `convert_to_bioes` (lines 56-86)

The loop looks up the next well-formed line with `nextLine(lines, i)`.
The runtime `nextLine` returns `None` at end of input; `convert_to_bioes`
then calls `.split` on it unconditionally, raising `AttributeError`
(embedded as `none`).  A well-formed line whose tag letter is not one of
`O`/`B`/`I` matches no branch of the `if`/`elif` chain and is silently
dropped (embedded as `some []`). -/
def bioesLine (l : Line) (rest : List Line) : Option (List Line) :=
  if isTok l then
    let lab := labelOf l
    match lab.head? with
    | none => none
    | some b =>
      let ent := lab.drop 2
      if b = 'O' then some [mkLine (wordOf l) ['O']]
      else if b = 'B' then
        match nextTok rest with
        | none => none
        | some nl =>
          match (labelOf nl).head? with
          | none => none
          | some nb =>
            if nb = 'I' then some [mkLine (wordOf l) ('B' :: '-' :: ent)]
            else some [mkLine (wordOf l) ('S' :: '-' :: ent)]
      else if b = 'I' then
        match nextTok rest with
        | none => none
        | some nl =>
          match (labelOf nl).head? with
          | none => none
          | some nb =>
            if nb = 'I' then some [mkLine (wordOf l) ('I' :: '-' :: ent)]
            else some [mkLine (wordOf l) ('E' :: '-' :: ent)]
      else some []
  else some [l]

def convert_to_bioes : List Line → Option (List Line)
  | [] => some []
  | l :: rest => do
      let h ← bioesLine l rest
      let t ← convert_to_bioes rest
      pure (h ++ t)

/-! ### Canonical BIO documents -/

/-- The last character of the label is not whitespace (so `label.strip()`
in `convert_to_bio` leaves it unchanged). -/
def lastNonWs (lab : Line) : Bool :=
  match lab.getLast? with
  | some c => ¬ c.isWhitespace
  | none => false

/-- A canonical BIO label: exactly `O`, or `B-`/`I-` followed by the
entity type, with no trailing whitespace. -/
def canonLabel (lab : Line) : Bool :=
  (lab = ['O']) ||
  (((lab.head? = some 'B') || (lab.head? = some 'I')) &&
    (lab.get? 1 = some '-') && lastNonWs lab)

/-- Every line splits into exactly two fields and carries a canonical
BIO label. -/
def allCanon (doc : List Line) : Bool :=
  doc.all (fun l => isTok l && canonLabel (labelOf l))

/-- Every `I-`tagged line is immediately preceded by a `B` or `I` line of
the same entity type (in particular the first line is not `I`-tagged). -/
def chainOK (doc : List Line) : Bool :=
  (match doc with
   | [] => true
   | l :: _ => ¬ ((labelOf l).head? = some 'I')) &&
  (doc.zip doc.tail).all (fun p =>
    match labelOf p.2 with
    | 'I' :: '-' :: t => (labelOf p.1 = 'B' :: '-' :: t) || (labelOf p.1 = 'I' :: '-' :: t)
    | _ => true)

/-- The claim's hypothesis: a canonical BIO sequence with no malformed
spans. -/
def canonDocClaim (doc : List Line) : Bool := allCanon doc && chainOK doc

/-- The document's last line (if any) is `O`-labelled, so the lookahead in
`convert_to_bioes` always finds a next labeled token. -/
def lastIsO (doc : List Line) : Bool :=
  match doc.getLast? with
  | none => true
  | some l => labelOf l = ['O']

theorem stripWs_eq_self (a : Char) (t : Line) (ha : a.isWhitespace = false)
    (h2 : lastNonWs (a :: t) = true) : stripWs (a :: t) = a :: t := by
  have hd : List.dropWhile Char.isWhitespace (a :: t) = a :: t :=
    List.dropWhile_cons_of_neg (by simp [ha])
  obtain ⟨e, he⟩ : ∃ e, (a :: t).getLast? = some e := by
    cases h : (a :: t).getLast? with
    | none => simp [List.getLast?] at h
    | some e => exact ⟨e, rfl⟩
  have hew : e.isWhitespace = false := by
    simp [lastNonWs, he] at h2
    simpa using h2
  have hrev : (a :: t).reverse.head? = some e := by
    rw [List.head?_reverse]; exact he
  obtain ⟨rs, hrs⟩ : ∃ rs, (a :: t).reverse = e :: rs := by
    cases hr : (a :: t).reverse with
    | nil => rw [hr] at hrev; simp at hrev
    | cons x xs => rw [hr] at hrev; simp at hrev; exact ⟨xs, by rw [hrev]⟩
  unfold stripWs stripRight
  rw [hd, hrs, List.dropWhile_cons_of_neg (by simp [hew]), ← hrs, List.reverse_reverse]

theorem lab_shape (lab : Line) (a b : Char) (h1 : lab.head? = some a)
    (h2 : lab.get? 1 = some b) : lab = a :: b :: lab.drop 2 := by
  cases lab with
  | nil => simp at h1
  | cons x t =>
    cases t with
    | nil => simp at h2
    | cons y u =>
      simp at h1 h2
      simp [h1, h2]

theorem lastNonWs_shift (a a' b : Char) (t : Line)
    (h : lastNonWs (a :: b :: t) = true) : lastNonWs (a' :: b :: t) = true := by
  simpa [lastNonWs, List.getLast?_cons_cons] using h

/-- `bioLine` keeps a line whose (strip-invariant) label starts with
neither `E` nor `S`. -/
theorem bioLine_keep (w lab : Line) (hw : ∀ c ∈ w, c ≠ ' ')
    (hstrip : stripWs lab = lab) (hnn : lab ≠ [])
    (hne : lab.head? ≠ some 'E') (hns : lab.head? ≠ some 'S') :
    bioLine (mkLine w lab) = some (mkLine w lab) := by
  obtain ⟨b, t, rfl⟩ : ∃ b t, lab = b :: t := by
    cases lab with
    | nil => exact absurd rfl hnn
    | cons b t => exact ⟨b, t, rfl⟩
  have hbe : b ≠ 'E' := fun h => hne (by simp [h])
  have hbs : b ≠ 'S' := fun h => hns (by simp [h])
  simp only [bioLine, isTok_mkLine, if_pos, labelOf_mkLine _ _ hw, hstrip,
    List.head?_cons, wordOf_mkLine _ _ hw]
  simp [hbe, hbs]

theorem bioLine_S_to_B (w t : Line) (hw : ∀ c ∈ w, c ≠ ' ')
    (hstrip : stripWs ('S' :: '-' :: t) = 'S' :: '-' :: t) :
    bioLine (mkLine w ('S' :: '-' :: t)) = some (mkLine w ('B' :: '-' :: t)) := by
  simp only [bioLine, isTok_mkLine, if_pos, labelOf_mkLine _ _ hw, hstrip,
    List.head?_cons, wordOf_mkLine _ _ hw]
  simp

theorem bioLine_E_to_I (w t : Line) (hw : ∀ c ∈ w, c ≠ ' ')
    (hstrip : stripWs ('E' :: '-' :: t) = 'E' :: '-' :: t) :
    bioLine (mkLine w ('E' :: '-' :: t)) = some (mkLine w ('I' :: '-' :: t)) := by
  simp only [bioLine, isTok_mkLine, if_pos, labelOf_mkLine _ _ hw, hstrip,
    List.head?_cons, wordOf_mkLine _ _ hw]
  simp

theorem canonLabel_cases (lab : Line) (h : canonLabel lab = true) :
    lab = ['O'] ∨
    (lab = 'B' :: '-' :: lab.drop 2 ∧ lastNonWs lab = true) ∨
    (lab = 'I' :: '-' :: lab.drop 2 ∧ lastNonWs lab = true) := by
  simp only [canonLabel, Bool.or_eq_true, Bool.and_eq_true, decide_eq_true_eq] at h
  rcases h with h | ⟨⟨hh, hd⟩, hl⟩
  · left; exact h
  · rcases hh with hB | hI
    · right; left; exact ⟨lab_shape lab _ _ hB hd, hl⟩
    · right; right; exact ⟨lab_shape lab _ _ hI hd, hl⟩

theorem canonLabel_head (lab : Line) (h : canonLabel lab = true) :
    ∃ nb, lab.head? = some nb := by
  rcases canonLabel_cases lab h with h | ⟨h, _⟩ | ⟨h, _⟩ <;>
    exact ⟨_, by rw [h]; rfl⟩

theorem bioesLine_O (l : Line) (rest : List Line) (hT : isTok l = true)
    (hO : labelOf l = ['O']) : bioesLine l rest = some [l] := by
  have hr : mkLine (wordOf l) ['O'] = l := by
    conv_rhs => rw [← recon l hT]
    rw [hO]
  simp [bioesLine, hT, hO, hr]

theorem bioesLine_B (l r : Line) (rest' : List Line) (t : Line) (nb : Char)
    (hT : isTok l = true) (hB : labelOf l = 'B' :: '-' :: t)
    (hTr : isTok r = true) (hr : (labelOf r).head? = some nb) :
    bioesLine l (r :: rest') =
      some [mkLine (wordOf l) ((if nb = 'I' then 'B' else 'S') :: '-' :: t)] := by
  have hnext : List.find? isTok (r :: rest') = some r := List.find?_cons_of_pos _ hTr
  by_cases hI : nb = 'I' <;>
    simp [bioesLine, nextTok, hT, hB, hnext, hr, hI]

theorem bioesLine_I (l r : Line) (rest' : List Line) (t : Line) (nb : Char)
    (hT : isTok l = true) (hB : labelOf l = 'I' :: '-' :: t)
    (hTr : isTok r = true) (hr : (labelOf r).head? = some nb) :
    bioesLine l (r :: rest') =
      some [mkLine (wordOf l) ((if nb = 'I' then 'I' else 'E') :: '-' :: t)] := by
  have hnext : List.find? isTok (r :: rest') = some r := List.find?_cons_of_pos _ hTr
  by_cases hI : nb = 'I' <;>
    simp [bioesLine, nextTok, hT, hB, hnext, hr, hI]

/-- Round trip on one head line: given a canonical head and (when needed) a
canonical following line, the BIOES image of the head converts back to the
head. -/
theorem head_roundtrip (l : Line) (rest : List Line)
    (hT : isTok l = true) (hC : canonLabel (labelOf l) = true)
    (hnext : (rest = [] → labelOf l = ['O']) ∧
      (∀ r rest', rest = r :: rest' → isTok r = true ∧ canonLabel (labelOf r) = true)) :
    ∃ l₁, bioesLine l rest = some [l₁] ∧ bioLine l₁ = some l := by
  have hw := wordOf_no_space l
  rcases canonLabel_cases _ hC with hO | ⟨hB, hL⟩ | ⟨hI, hL⟩
  · refine ⟨l, bioesLine_O l rest hT hO, ?_⟩
    have heq : mkLine (wordOf l) ['O'] = l := by
      rw [← hO]; exact recon l hT
    rw [← heq]
    exact bioLine_keep _ _ hw (by decide) (by simp) (by decide) (by decide)
  · -- B-labelled head: the next labeled token must exist (last line is O)
    cases rest with
    | nil =>
      have := hnext.1 rfl
      rw [this] at hB; simp at hB
    | cons r rest' =>
      obtain ⟨hTr, hCr⟩ := hnext.2 r rest' rfl
      obtain ⟨nb, hnb⟩ := canonLabel_head _ hCr
      set t := (labelOf l).drop 2 with ht
      have hstripB : stripWs ('B' :: '-' :: t) = 'B' :: '-' :: t :=
        stripWs_eq_self _ _ (by decide) (by rw [← hB]; exact hL)
      have heq : mkLine (wordOf l) ('B' :: '-' :: t) = l := by
        rw [← hB]; exact recon l hT
      refine ⟨_, bioesLine_B l r rest' t nb hT hB hTr hnb, ?_⟩
      by_cases hImatch : nb = 'I'
      · rw [if_pos hImatch]
        rw [bioLine_keep (wordOf l) ('B' :: '-' :: t) hw hstripB (by simp)
          (by simp) (by simp), heq]
      · rw [if_neg hImatch]
        have hstripS : stripWs ('S' :: '-' :: t) = 'S' :: '-' :: t :=
          stripWs_eq_self _ _ (by decide)
            (lastNonWs_shift 'B' 'S' '-' t (by rw [← hB]; exact hL))
        rw [bioLine_S_to_B (wordOf l) t hw hstripS, heq]
  · cases rest with
    | nil =>
      have := hnext.1 rfl
      rw [this] at hI; simp at hI
    | cons r rest' =>
      obtain ⟨hTr, hCr⟩ := hnext.2 r rest' rfl
      obtain ⟨nb, hnb⟩ := canonLabel_head _ hCr
      set t := (labelOf l).drop 2 with ht
      have hstripI : stripWs ('I' :: '-' :: t) = 'I' :: '-' :: t :=
        stripWs_eq_self _ _ (by decide) (by rw [← hI]; exact hL)
      have heq : mkLine (wordOf l) ('I' :: '-' :: t) = l := by
        rw [← hI]; exact recon l hT
      refine ⟨_, bioesLine_I l r rest' t nb hT hI hTr hnb, ?_⟩
      by_cases hImatch : nb = 'I'
      · rw [if_pos hImatch]
        rw [bioLine_keep (wordOf l) ('I' :: '-' :: t) hw hstripI (by simp)
          (by simp) (by simp), heq]
      · rw [if_neg hImatch]
        have hstripE : stripWs ('E' :: '-' :: t) = 'E' :: '-' :: t :=
          stripWs_eq_self _ _ (by decide)
            (lastNonWs_shift 'I' 'E' '-' t (by rw [← hI]; exact hL))
        rw [bioLine_E_to_I (wordOf l) t hw hstripE, heq]

theorem roundtrip_aux : ∀ doc : List Line, allCanon doc = true → lastIsO doc = true →
    (convert_to_bioes doc).bind convert_to_bio = some doc := by
  intro doc
  induction doc with
  | nil => intro _ _; rfl
  | cons l rest ih =>
    intro hAll hLast
    have hAl : (isTok l && canonLabel (labelOf l)) = true ∧ allCanon rest = true := by
      simpa [allCanon, Bool.and_eq_true] using hAll
    obtain ⟨hTl, hCl⟩ := Bool.and_eq_true _ _ |>.mp hAl.1
    have hnext : (rest = [] → labelOf l = ['O']) ∧
        (∀ r rest', rest = r :: rest' → isTok r = true ∧ canonLabel (labelOf r) = true) := by
      constructor
      · intro hrnil
        subst hrnil
        simpa [lastIsO, List.getLast?] using hLast
      · intro r rest' hreq
        subst hreq
        have h2 := hAl.2
        simp only [allCanon, List.all_cons, Bool.and_eq_true] at h2
        exact h2.1
    obtain ⟨l₁, hbe, hbl⟩ := head_roundtrip l rest hTl hCl hnext
    cases rest with
    | nil =>
      simp only [convert_to_bioes, hbe]
      simp [convert_to_bio, mapOptM, hbl]
    | cons r rest' =>
      have hLast' : lastIsO (r :: rest') = true := by
        simpa [lastIsO, List.getLast?_cons_cons] using hLast
      have hrec := ih hAl.2 hLast'
      cases hcr : convert_to_bioes (r :: rest') with
      | none => rw [hcr] at hrec; simp at hrec
      | some tl =>
        rw [hcr] at hrec
        simp only [Option.some_bind] at hrec
        have htop : convert_to_bioes (l :: r :: rest') = some (l₁ :: tl) := by
          rw [convert_to_bioes, hbe, hcr]
          rfl
        rw [htop, Option.some_bind]
        simp only [convert_to_bio, mapOptM, hbl] at hrec ⊢
        simp [hrec]

/-- Claim C1 (code bug): `convert_to_bioes` is claimed to finish without an
exception even when a `B`- or `I`-tagged token is the last well-formed line,
treating the token as span-final.  The code instead raises: the runtime
`nextLine` returns `None` there, and `convert_to_bioes` immediately calls
`next_line.split(' ', 1)` on it (`AttributeError`).  Evaluated at the
failing input `a B-X` (single-line document), the embedded function
returns `none` (raises) instead of producing `a S-X`. -/
theorem C1_convert_to_bioes_crashes_at_end :
    convert_to_bioes [lit "a B-X"] = none ∧
    convert_to_bioes [lit "a B-X"] ≠ some [lit "a S-X"] := by decide

/-- Claim C2, counterexample: the round trip
`convert_to_bio (convert_to_bioes x) = x` fails for the canonical BIO
document `a B-X` (no malformed lines, no orphan `I`), because
`convert_to_bioes` raises on the trailing `B`-tagged line. -/
theorem C2_roundtrip_counterexample :
    canonDocClaim [lit "a B-X"] = true ∧
    (convert_to_bioes [lit "a B-X"]).bind convert_to_bio ≠ some [lit "a B-X"] := by
  decide

/-- Claim C2, amended: for a canonical BIO document with no malformed spans
*whose last line is `O`-labelled* (so the lookahead always finds a next
labeled token), `convert_to_bio (convert_to_bioes x) = x`. -/
theorem C2_roundtrip_amended (doc : List Line) (h1 : canonDocClaim doc = true)
    (h2 : lastIsO doc = true) :
    (convert_to_bioes doc).bind convert_to_bio = some doc := by
  have hA : allCanon doc = true := by
    simp only [canonDocClaim, Bool.and_eq_true] at h1
    exact h1.1
  exact roundtrip_aux doc hA h2

/-- Witness for the amended C2 round trip at a concrete three-line
canonical BIO document. -/
theorem C2_roundtrip_witness :
    (convert_to_bioes [lit "mal B-Tool", lit "ware I-Tool", lit ". O"]).bind
      convert_to_bio = some [lit "mal B-Tool", lit "ware I-Tool", lit ". O"] :=
  C2_roundtrip_amended _ (by decide) (by decide)

/-! ### LabelRemapper: `perform_1to1_mapping` (lines 104-122) and
`perform_many_to_1_mapping` (lines 143-169)

`bio, entity = label[0], label[2:]` runs before the membership test, so an
empty label raises even for lines that would not be remapped.
`target_labels[...]` out of range raises `IndexError` (embedded via
`List.get?`).  Python `list.index(x)` is `List.indexOf`. -/

def oneTo1Line (src tgt : List Line) (l : Line) : Option Line :=
  if isTok l then
    let lab := labelOf l
    match lab.head? with
    | none => none
    | some b =>
      let ent := lab.drop 2
      if src ≠ [] ∧ ent ∈ src then
        match tgt.get? (src.indexOf ent) with
        | none => none
        | some t => some (mkLine (wordOf l) (b :: '-' :: t))
      else some l
  else some l

def perform_1to1_mapping (src tgt : List Line) (doc : List Line) :
    Option (List Line) := mapOptM (oneTo1Line src tgt) doc

def manyTo1Line (sets tgt : List Line) (l : Line) : Option Line :=
  if isTok l then
    let lab := labelOf l
    match lab.head? with
    | none => none
    | some b =>
      let ent := lab.drop 2
      match sets.find? (fun s => ent ∈ splitOnChar ',' s) with
      | some s =>
        match tgt.get? (sets.indexOf s) with
        | none => none
        | some t => some (mkLine (wordOf l) (b :: '-' :: t))
      | none => some l
  else some l

def perform_many_to_1_mapping (sets tgt : List Line) (doc : List Line) :
    Option (List Line) := mapOptM (manyTo1Line sets tgt) doc

/-! ### Claim C3: the remapping stages preserve line structure and tags -/

/-- The per-line shape the remappers preserve: malformed lines verbatim,
well-formed lines keep their word and the first character of their label. -/
def TagFrame (a b : Line) : Prop :=
  (isTok a = false → b = a) ∧
  (isTok a = true → isTok b = true ∧ wordOf b = wordOf a ∧
    (labelOf b).head? = (labelOf a).head?)

theorem tagFrame_refl (a : Line) : TagFrame a a :=
  ⟨fun _ => rfl, fun h => ⟨h, rfl, rfl⟩⟩

theorem tagFrame_rewrite (a : Line) (b : Char) (t : Line)
    (hT : isTok a = true) (hb : (labelOf a).head? = some b) :
    TagFrame a (mkLine (wordOf a) (b :: t)) := by
  constructor
  · intro h
    rw [hT] at h
    exact Bool.noConfusion h
  · intro _
    refine ⟨isTok_mkLine _ _, wordOf_mkLine_of_word a _, ?_⟩
    rw [labelOf_mkLine_of_word a (b :: t), hb]
    rfl

theorem oneTo1Line_frame (src tgt : List Line) (a b : Line)
    (h : oneTo1Line src tgt a = some b) : TagFrame a b := by
  simp only [oneTo1Line] at h
  split at h
  · split at h
    · cases h
    · rename_i hT _ c hc
      split at h
      · split at h
        · cases h
        · cases h
          exact tagFrame_rewrite a c _ hT hc
      · cases h
        exact tagFrame_refl a
  · cases h
    exact tagFrame_refl a

theorem manyTo1Line_frame (sets tgt : List Line) (a b : Line)
    (h : manyTo1Line sets tgt a = some b) : TagFrame a b := by
  simp only [manyTo1Line] at h
  split at h
  · split at h
    · cases h
    · rename_i hT _ c hc
      split at h
      · split at h
        · cases h
        · cases h
          exact tagFrame_rewrite a c _ hT hc
      · cases h
        exact tagFrame_refl a
  · cases h
    exact tagFrame_refl a

theorem mapOptM_forall₂ (f : Line → Option Line) (P : Line → Line → Prop)
    (hf : ∀ a b, f a = some b → P a b) :
    ∀ doc out, mapOptM f doc = some out → List.Forall₂ P doc out := by
  intro doc
  induction doc with
  | nil =>
    intro out h
    cases h
    exact List.Forall₂.nil
  | cons a as' ih =>
    intro out h
    cases hfa : f a with
    | none => rw [mapOptM, hfa] at h; cases h
    | some b =>
      cases hrest : mapOptM f as' with
      | none => rw [mapOptM, hfa, hrest] at h; cases h
      | some bs =>
        rw [mapOptM, hfa, hrest] at h
        simp only [Option.some_bind, Option.pure_def, Option.some.injEq] at h
        cases h
        exact List.Forall₂.cons (hf a b hfa) (ih bs hrest)

/-- Claim C3: both remapping passes leave the sequence of tag letters (the
first character of each well-formed line's label) unchanged — line for
line, malformed lines are kept verbatim and well-formed lines keep their
word and tag letter; only the entity type can change. -/
theorem C3_remap_preserves_tags (src tgt sets tgt2 : List Line)
    (doc out1 out2 : List Line)
    (h1 : perform_1to1_mapping src tgt doc = some out1)
    (h2 : perform_many_to_1_mapping sets tgt2 doc = some out2) :
    List.Forall₂ TagFrame doc out1 ∧ List.Forall₂ TagFrame doc out2 :=
  ⟨mapOptM_forall₂ _ _ (oneTo1Line_frame src tgt) doc out1 h1,
   mapOptM_forall₂ _ _ (manyTo1Line_frame sets tgt2) doc out2 h2⟩

/-- Witness for C3 at a concrete document and configuration: the `Mal`
type is remapped to `MAL` (one-to-one) and `Tool,Mal` to `SW`
(many-to-one); tags, words and the malformed line survive unchanged. -/
theorem C3_remap_witness :
    List.Forall₂ TagFrame [lit "x B-Mal", lit "", lit "y O"]
      [lit "x B-MAL", lit "", lit "y O"] ∧
    List.Forall₂ TagFrame [lit "x B-Mal", lit "", lit "y O"]
      [lit "x B-SW", lit "", lit "y O"] :=
  C3_remap_preserves_tags [lit "Mal"] [lit "MAL"] [lit "Tool,Mal"] [lit "SW"]
    [lit "x B-Mal", lit "", lit "y O"] _ _ (by decide) (by decide)

/-! ### HeuristicClassifier: `isFile` (lines 340-358), `isHash` (lines
361-371), `sampleFile` (lines 374-394)

Both classifiers first clean the text with `re.sub(r'[^\\w\\s.]+', '', text)`
(keep word characters, whitespace and dots).  `isFile` matches the cleaned
text against `^.*\\.(jpg|...|bak|)$` (note the trailing empty alternative:
any text ending in a bare dot also matches) with `re.IGNORECASE`; the
negative lookahead `(?!.*\\.(com|net|org|gov|edu|fr)\\b)` is placed *after*
the `$` anchor, where `.*\\.` can never match, so it never rejects anything
and contributes nothing.  `isHash` searches (`re.findall`) for
`\\b(?:[a-fA-F0-9]{32}|[a-fA-F0-9]{40}|[a-fA-F0-9]{64}|[a-fA-F0-9]{128})\\b`:
a hex run of length exactly 32, 40, 64 or 128, delimited by word
boundaries; it returns the *original* text on a match. -/

/-- Python regex `\\w` (ASCII fragment). -/
def isWordChar (c : Char) : Bool := c.isAlphanum || c = '_'

/-- `[a-fA-F0-9]`. -/
def isHexChar (c : Char) : Bool :=
  c.isDigit || (c.val ≥ 97 && c.val ≤ 102) || (c.val ≥ 65 && c.val ≤ 70)

/-- `re.sub(r'[^\\w\\s.]+', '', text)`. -/
def cleanText (t : Line) : Line :=
  t.filter (fun c => isWordChar c || c.isWhitespace || c = '.')

/-- The closed extension alternation of `isFile`, including the empty
alternative produced by the trailing `|` in the source pattern. -/
def extList : List Line :=
  (["jpg", "gif", "doc", "pdf", "exe", "docx", "sh", "zip", "tar", "mp3",
    "mp4", "txt", "dat", "bash", "dll", "net", "json", "dcm", "js", "java",
    "py", "php", "html", "css", "mov", "wav", "xsl", "eps", "avi", "ppt",
    "xlsx", "odt", "mid", "mpa", "wma", "aif", "rar", "gz", "7z", "arj",
    "pkg", "rpm", "wpl", "csv", "xml", "sql", "ps", "jps", "cer", "pfx",
    "jsp", "xhtml", "rss", "pptx", "png", "jpeg", "md", "bak", ""]).map lit

def isFile (t : Line) : Option Line :=
  let s := cleanText t
  if (List.range s.length).any (fun i =>
      decide (s[i]? = some '.') && decide (pyLower (s.drop (i + 1)) ∈ extList))
  then some (lit "FILE") else none

/-- Is the position-`i` character a word character (out of range counts as
non-word, as for regex `\\b`)? -/
def wordAt (s : Line) (i : Nat) : Bool :=
  match s[i]? with
  | some c => isWordChar c
  | none => false

/-- Regex `\\b` at position `i`: word-ness differs on the two sides. -/
def boundaryAt (s : Line) (i : Nat) : Bool :=
  (if i = 0 then false else wordAt s (i - 1)) != wordAt s i

/-- A hex run of length exactly `n` starting at `i`, with `\\b` on both
sides. -/
def hashRunAt (s : Line) (i n : Nat) : Bool :=
  boundaryAt s i && boundaryAt s (i + n) &&
  (List.range n).all (fun k =>
    match s[i + k]? with
    | some c => isHexChar c
    | none => false)

def isHash (t : Line) : Option Line :=
  let s := cleanText t
  if (List.range (s.length + 1)).any (fun i =>
      ([32, 40, 64, 128] : List Nat).any (fun n => hashRunAt s i n))
  then some t else none

/-- `sampleFile(entity, default_label)`: file first, then hash by length;
`dLab = none` models the `None` default used by the IoC discovery caller
(`pyShow` below renders it the way an f-string would). -/
def sampleFile (entity : Line) (dLab : Option Line) : Option Line :=
  match isFile entity with
  | some f => some f
  | none =>
    match isHash entity with
    | some h =>
      if h.length ≤ 32 then some (lit "MD5")
      else if h.length ≤ 40 then some (lit "SHA1")
      else if h.length ≤ 64 then some (lit "SHA2")
      else if h.length ≤ 128 then some (lit "SHA3")
      else some (lit "SHA3")
    | none => dLab

/-- Python f-string interpolation of an optional value (`None` prints as
`None`). -/
def pyShow (o : Option Line) : Line :=
  match o with
  | some v => v
  | none => lit "None"

/-! ### Claim C6: hash-length boundaries of `sampleFile` -/

theorem hex_isWord (c : Char) (h : isHexChar c = true) : isWordChar c = true := by
  simp only [isHexChar, isWordChar, Char.isAlphanum, Char.isAlpha, Char.isLower,
    Char.isUpper, Char.isDigit, Bool.or_eq_true, Bool.and_eq_true,
    decide_eq_true_eq, UInt32.le_def, BitVec.le_def] at h ⊢
  have e1 : ((48 : UInt32).toBitVec).toNat = 48 := rfl
  have e2 : ((57 : UInt32).toBitVec).toNat = 57 := rfl
  have e3 : ((97 : UInt32).toBitVec).toNat = 97 := rfl
  have e4 : ((102 : UInt32).toBitVec).toNat = 102 := rfl
  have e5 : ((122 : UInt32).toBitVec).toNat = 122 := rfl
  have e6 : ((65 : UInt32).toBitVec).toNat = 65 := rfl
  have e7 : ((70 : UInt32).toBitVec).toNat = 70 := rfl
  have e8 : ((90 : UInt32).toBitVec).toNat = 90 := rfl
  rw [e1, e2, e3, e4, e6, e7] at h
  rw [e1, e2, e3, e5, e6, e8]
  omega

theorem hex_ne_dot (c : Char) (h : isHexChar c = true) : c ≠ '.' := by
  intro hc
  subst hc
  simp [isHexChar] at h

theorem cleanText_of_hex (t : Line) (h : ∀ c ∈ t, isHexChar c = true) :
    cleanText t = t := by
  apply List.filter_eq_self.mpr
  intro c hc
  simp [hex_isWord c (h c hc)]

theorem isFile_of_hex (t : Line) (h : ∀ c ∈ t, isHexChar c = true) :
    isFile t = none := by
  simp only [isFile, cleanText_of_hex t h]
  rw [if_neg]
  intro hany
  simp only [List.any_eq_true, List.mem_range, Bool.and_eq_true, decide_eq_true_eq] at hany
  obtain ⟨i, _, hdot, _⟩ := hany
  have hmem : '.' ∈ t := by
    have := List.getElem?_mem hdot
    exact this
  exact hex_ne_dot '.' (h '.' hmem) rfl

theorem wordAt_of_hex (t : Line) (h : ∀ c ∈ t, isHexChar c = true) (j : Nat) :
    wordAt t j = decide (j < t.length) := by
  by_cases hj : j < t.length
  · obtain ⟨c, hc⟩ : ∃ c, t[j]? = some c := ⟨t[j], List.getElem?_eq_getElem hj⟩
    simp [wordAt, hc, hex_isWord c (h c (List.getElem?_mem hc)), hj]
  · have : t[j]? = none := List.getElem?_eq_none (by omega)
    simp [wordAt, this, hj]

theorem hashRunAt_of_hex (t : Line) (h : ∀ c ∈ t, isHexChar c = true)
    (i n : Nat) (hn : n ≠ 0) (hr : hashRunAt t i n = true) :
    i = 0 ∧ n = t.length := by
  simp only [hashRunAt, Bool.and_eq_true, List.all_eq_true, List.mem_range] at hr
  obtain ⟨⟨hb1, hb2⟩, hrun⟩ := hr
  have hin : i < t.length := by
    have h0 := hrun 0 (Nat.pos_of_ne_zero hn)
    by_contra hcon
    have : t[i + 0]? = none := List.getElem?_eq_none (by omega)
    rw [this] at h0
    exact Bool.noConfusion h0
  have hi0 : i = 0 := by
    by_contra hi
    rw [boundaryAt, if_neg hi, wordAt_of_hex t h, wordAt_of_hex t h] at hb1
    have h1 : i - 1 < t.length := by omega
    simp [h1, hin] at hb1
  subst hi0
  have hnl : n ≤ t.length := by
    have hlast := hrun (n - 1) (by omega)
    by_contra hcon
    have : t[0 + (n - 1)]? = none := List.getElem?_eq_none (by omega)
    rw [this] at hlast
    exact Bool.noConfusion hlast
  refine ⟨rfl, ?_⟩
  by_contra hne
  have hlt : n < t.length := by omega
  rw [boundaryAt, if_neg (by omega), wordAt_of_hex t h, wordAt_of_hex t h] at hb2
  simp only [bne_iff_ne, ne_eq, decide_eq_decide] at hb2
  exact hb2 ⟨fun _ => by omega, fun _ => by omega⟩

theorem hashRunAt_full (t : Line) (h : ∀ c ∈ t, isHexChar c = true)
    (hne : t ≠ []) : hashRunAt t 0 t.length = true := by
  have hlen : 0 < t.length := List.length_pos.mpr hne
  simp only [hashRunAt, Bool.and_eq_true, List.all_eq_true, List.mem_range]
  refine ⟨⟨?_, ?_⟩, ?_⟩
  · rw [boundaryAt, if_pos rfl, wordAt_of_hex t h]
    simp [hlen]
  · rw [boundaryAt, if_neg (by omega), wordAt_of_hex t h, wordAt_of_hex t h]
    simp only [bne_iff_ne, ne_eq, decide_eq_decide]
    exact fun hiff => absurd (hiff.mp (by omega)) (by omega)
  · intro k hk
    have hk' : 0 + k < t.length := by omega
    obtain ⟨c, hc⟩ : ∃ c, t[0 + k]? = some c := ⟨t[0 + k], List.getElem?_eq_getElem hk'⟩
    rw [hc]
    exact h c (List.getElem?_mem hc)

theorem isHash_of_hex (t : Line) (h : ∀ c ∈ t, isHexChar c = true)
    (hne : t ≠ []) :
    isHash t = if t.length = 32 ∨ t.length = 40 ∨ t.length = 64 ∨ t.length = 128
      then some t else none := by
  simp only [isHash, cleanText_of_hex t h]
  by_cases hlen : t.length = 32 ∨ t.length = 40 ∨ t.length = 64 ∨ t.length = 128
  · rw [if_pos hlen, if_pos]
    simp only [List.any_eq_true, List.mem_range]
    refine ⟨0, by omega, t.length, ?_, hashRunAt_full t h hne⟩
    rcases hlen with h' | h' | h' | h' <;> simp [h']
  · rw [if_neg hlen, if_neg]
    intro hany
    simp only [List.any_eq_true, List.mem_range] at hany
    obtain ⟨i, _, n, hnmem, hrun⟩ := hany
    simp only [List.mem_cons, List.not_mem_nil, or_false] at hnmem
    have hn0 : n ≠ 0 := by
      rcases hnmem with h' | h' | h' | h' <;> omega
    obtain ⟨_, hfull⟩ := hashRunAt_of_hex t h i n hn0 hrun
    apply hlen
    rcases hnmem with h' | h' | h' | h' <;> omega

/-- Claim C6, counterexample: a token of 33 hex characters is *not*
classified as SHA1 (the regex only matches runs of length exactly
32/40/64/128, so `sampleFile` falls back to the caller's default). -/
theorem C6_hash_33_counterexample :
    sampleFile (List.replicate 33 'a') (some (lit "MAL")) = some (lit "MAL") ∧
    sampleFile (List.replicate 33 'a') (some (lit "MAL")) ≠ some (lit "SHA1") := by
  have hhex : ∀ c ∈ List.replicate 33 'a', isHexChar c = true := by decide
  have h : sampleFile (List.replicate 33 'a') (some (lit "MAL")) = some (lit "MAL") := by
    rw [sampleFile, isFile_of_hex _ hhex, isHash_of_hex _ hhex (by decide)]
    simp
  exact ⟨h, by rw [h]; decide⟩

/-- Claim C6, amended: for a non-empty token consisting of hexadecimal
characters, `sampleFile` returns MD5 when the length is exactly 32, SHA1
exactly 40, SHA2 exactly 64, SHA3 exactly 128, and the caller's default
label for every other length. -/
theorem C6_hash_lengths_amended (t : Line) (d : Line) (hne : t ≠ [])
    (h : ∀ c ∈ t, isHexChar c = true) :
    sampleFile t (some d) = some (
      if t.length = 32 then lit "MD5"
      else if t.length = 40 then lit "SHA1"
      else if t.length = 64 then lit "SHA2"
      else if t.length = 128 then lit "SHA3"
      else d) := by
  rw [sampleFile, isFile_of_hex t h, isHash_of_hex t h hne]
  by_cases h32 : t.length = 32
  · simp [h32]
  · by_cases h40 : t.length = 40
    · simp [h32, h40]
    · by_cases h64 : t.length = 64
      · simp [h32, h40, h64]
      · by_cases h128 : t.length = 128
        · simp [h32, h40, h64, h128]
        · simp [h32, h40, h64, h128]

/-- Witness for the amended C6 at a concrete 32-hex-character token. -/
theorem C6_hash_lengths_witness :
    sampleFile (List.replicate 32 'a') (some (lit "MAL")) = some (lit "MD5") := by
  have := C6_hash_lengths_amended (List.replicate 32 'a') (lit "MAL")
    (by decide) (by decide)
  simpa using this

/-! ### One-to-many: `classify_file` (lines 430-461)

Per line: whitespace-only lines fall into the outer `else` and are kept;
a well-formed line of the designated label with tag `S` is reclassified
through `sampleFile`; with tag `B` the next labeled line is inspected —
if its tag is `I` or `E` (a multi-token span) *no branch appends
anything and the whole `B` line is dropped*; at end of input
`next_line.split` raises on `None`.  All other lines are appended
verbatim. -/
def classifyFileLine (ds dLab : Line) (l : Line) (rest : List Line) :
    Option (List Line) :=
  if isBlank l then some [l]
  else if isTok l then
    let lab := labelOf l
    if lab.drop 2 = ds then
      match lab.head? with
      | none => none
      | some b =>
        if b = 'S' then
          some [mkLine (wordOf l) ('S' :: '-' :: pyShow (sampleFile (wordOf l) (some dLab)))]
        else if b = 'B' then
          match nextTok rest with
          | none => none
          | some nl =>
            match (labelOf nl).head? with
            | none => none
            | some nb =>
              if nb ≠ 'I' ∧ nb ≠ 'E' then
                some [mkLine (wordOf l) ('B' :: '-' :: pyShow (sampleFile (wordOf l) (some dLab)))]
              else some []
        else some [l]
    else some [l]
  else some [l]

def classify_file (ds dLab : Line) : List Line → Option (List Line)
  | [] => some []
  | l :: rest => do
      let h ← classifyFileLine ds dLab l rest
      let t ← classify_file ds dLab rest
      pure (h ++ t)

/-- Claim C4 (code bug): the spec demands that no pass introduce a new
tagging-scheme violation and that `classify_file` keep every token of a
multi-token span of the designated label.  Evaluated at the two-line span
`mal B-File / ware E-File` (designated label `File`), the `B` line is
silently dropped (its branch appends nothing when the next tag is `I` or
`E`), leaving an orphaned `E-File` line — a violation absent from the
input. -/
theorem C4_classify_file_drops_span_begin :
    classify_file (lit "File") (lit "FILE")
      [lit "mal B-File", lit "ware E-File"] = some [lit "ware E-File"] ∧
    lit "mal B-File" ∈ [lit "mal B-File", lit "ware E-File"] ∧
    lit "mal B-File" ∉ [lit "ware E-File"] := by decide

/-! ### One-to-many: `classify_exploit` (lines 464-494)

`target_labels = targetLabels.split(',')`; if all targets are `na` or the
dataset label is the exact string `na` the pass returns its input
unchanged.  Inside the loop, `if line.split():` has **no else branch**, so
whitespace-only lines are dropped.  The label rewrite is Python
`str.replace` of `label[2:]` inside `label` (all occurrences; an empty
pattern inserts the replacement at every position). -/

def pyReplaceGo (pat rep : Line) : Nat → Line → Line
  | _, [] => []
  | 0, s => s
  | fuel + 1, ch :: t =>
    if pat.isPrefixOf (ch :: t) then
      rep ++ pyReplaceGo pat rep fuel ((ch :: t).drop pat.length)
    else ch :: pyReplaceGo pat rep fuel t

/-- Python `s.replace(pat, rep)`: leftmost, non-overlapping; an empty
pattern inserts `rep` at every position.  The non-empty case consumes at
least one character per step, so `s.length` steps of fuel always
suffice (fuel keeps the recursion structural for kernel evaluation). -/
def pyReplace (s pat rep : Line) : Line :=
  if pat = [] then rep ++ s.foldr (fun ch acc => ch :: (rep ++ acc)) []
  else pyReplaceGo pat rep s.length s

def exploitLine (ds : Line) (tgts : List Line) (l : Line) : Option (List Line) :=
  if isBlank l then some []
  else if isTok l then
    let lab := labelOf l
    if pyUpper (lab.drop 2) = pyUpper ds then
      let idx : Nat :=
        if (lit "CVE").isPrefixOf (wordOf l) ∨ (lit "(CVE").isPrefixOf (wordOf l)
        then 1 else 0
      match tgts.get? idx with
      | none => none
      | some t => some [mkLine (wordOf l) (pyReplace lab (lab.drop 2) t)]
    else some [mkLine (wordOf l) lab]
  else some [l]

def classify_exploit (ds tgtsRaw : Line) (doc : List Line) : Option (List Line) :=
  let tgts := splitOnChar ',' tgtsRaw
  if tgts.all (fun t => pyLower t = lit "na") || ds = lit "na" then some doc
  else flatOptM (exploitLine ds tgts) doc

/-! ### Encryption discovery: `get_encryption_by_name` (lines 825-834) and
`discover_encr` (lines 837-876)

The reference table (`encryption_algorithms.csv`, column
`ENCR_Algorithms`) is supplied externally; the core uses it as a
case-insensitive membership test, so it is a parameter here.  As in
`classify_exploit`, `if line.split():` has no else branch: whitespace-only
lines are dropped.  An output scheme other than `BIO`/`BIOES` leaves
`tag` unbound (`NameError` on first use, embedded as `none`). -/

def get_encryption_by_name (table : List Line) (name dLab newLab : Line) : Line :=
  if table.any (fun r => pyLower r = pyLower name) then newLab else dLab

def encrLine (table : List Line) (newLab : Line) (tag : Option Char) (l : Line) :
    Option (List Line) :=
  if isBlank l then some []
  else if isTok l then
    let lab := labelOf l
    if lab.head? = some 'O' then
      let new2 := get_encryption_by_name table (wordOf l) (lit "O") newLab
      if new2 ≠ lit "O" then
        match tag with
        | none => none
        | some tg => some [mkLine (wordOf l) (tg :: '-' :: new2)]
      else some [mkLine (wordOf l) lab]
    else some [l]
  else some [l]

def discover_encr (table : List Line) (newLab tagging : Line) (doc : List Line) :
    Option (List Line) :=
  if pyLower newLab = lit "na" || (splitOnChar ',' newLab).length > 1 then some doc
  else
    let tag : Option Char :=
      if tagging = lit "BIO" then some 'B'
      else if tagging = lit "BIOES" then some 'S' else none
    flatOptM (encrLine table newLab tag) doc

/-! ### Claim C5: preservation of malformed lines -/

/-- Lines the claim is about after amendment: malformed (not two fields)
and not whitespace-only. -/
def keepML (l : Line) : Bool := ¬ isTok l && ¬ isBlank l

theorem flatOptM_filter (f : Line → Option (List Line)) (p : Line → Bool)
    (hf : ∀ a bs, f a = some bs → bs.filter p = List.filter p [a]) :
    ∀ doc out, flatOptM f doc = some out → out.filter p = doc.filter p := by
  intro doc
  induction doc with
  | nil =>
    intro out h
    cases h
    rfl
  | cons a as' ih =>
    intro out h
    cases hfa : f a with
    | none => rw [flatOptM, hfa] at h; cases h
    | some bs =>
      cases hrest : flatOptM f as' with
      | none => rw [flatOptM, hfa, hrest] at h; cases h
      | some bs' =>
        rw [flatOptM, hfa, hrest] at h
        have hout : bs ++ bs' = out := Option.some.inj h
        subst hout
        rw [List.filter_append, hf a bs hfa, ih bs' hrest, List.filter_cons]
        by_cases hp : p a <;> simp [hp, List.filter_cons]

theorem keepML_mkLine (w lab : Line) : keepML (mkLine w lab) = false := by
  simp [keepML, isTok_mkLine]

theorem exploitLine_filter (ds : Line) (tgts : List Line) (a : Line)
    (bs : List Line) (h : exploitLine ds tgts a = some bs) :
    bs.filter keepML = List.filter keepML [a] := by
  simp only [exploitLine] at h
  split at h
  · cases h
    rename_i hb
    simp [List.filter_cons, keepML, hb]
  · split at h
    · rename_i hnb hT
      have hk : keepML a = false := by simp [keepML, hT]
      split at h
      · split at h
        · cases h
        · cases h
          simp [List.filter_cons, keepML_mkLine, hk]
      · cases h
        simp [List.filter_cons, keepML_mkLine, hk]
    · cases h
      rfl

theorem encrLine_filter (table : List Line) (newLab : Line) (tag : Option Char)
    (a : Line) (bs : List Line) (h : encrLine table newLab tag a = some bs) :
    bs.filter keepML = List.filter keepML [a] := by
  simp only [encrLine] at h
  split at h
  · cases h
    rename_i hb
    simp [List.filter_cons, keepML, hb]
  · split at h
    · rename_i hnb hT
      have hk : keepML a = false := by simp [keepML, hT]
      split at h
      · split at h
        · split at h
          · cases h
          · cases h
            simp [List.filter_cons, keepML_mkLine, hk]
        · cases h
          simp [List.filter_cons, keepML_mkLine, hk]
      · cases h
        rfl
    · cases h
      rfl

/-- Claim C5, counterexample: `classify_exploit` (in an active
configuration) drops a whitespace-only line instead of passing it through
verbatim — `if line.split():` has no else branch. -/
theorem C5_blank_dropped_counterexample :
    classify_exploit (lit "Exp") (lit "VULNAME,VULID")
      [lit "a B-Exp", [], lit "b O"] = some [lit "a B-VULNAME", lit "b O"] ∧
    ([] : Line) ∈ [lit "a B-Exp", ([] : Line), lit "b O"] ∧
    ([] : Line) ∉ [lit "a B-VULNAME", lit "b O"] := by decide

/-- Claim C5, amended: in the two passes the claim's sources cite
(`classify_exploit` and `discover_encr`), every *non-whitespace* line that
does not split into exactly two fields appears verbatim, in order, in the
pass's output (stated as equality of the malformed-non-blank
subsequences); whitespace-only lines are not preserved by these two
passes (see the counterexample — the other passes keep them). -/
theorem C5_malformed_preserved_amended (ds tgtsRaw : Line) (table : List Line)
    (newLab tagging : Line) (doc out1 out2 : List Line)
    (h1 : classify_exploit ds tgtsRaw doc = some out1)
    (h2 : discover_encr table newLab tagging doc = some out2) :
    out1.filter keepML = doc.filter keepML ∧
    out2.filter keepML = doc.filter keepML := by
  constructor
  · simp only [classify_exploit] at h1
    split at h1
    · cases h1; rfl
    · exact flatOptM_filter _ keepML (exploitLine_filter ds _) doc out1 h1
  · simp only [discover_encr] at h2
    split at h2
    · cases h2; rfl
    · exact flatOptM_filter _ keepML (encrLine_filter table newLab _) doc out2 h2

/-- Witness for the amended C5 at concrete runs of both passes over a
document containing a sentence-boundary line and a blank line. -/
theorem C5_malformed_preserved_witness :
    [lit "-DOCSTART-", lit "aes O", lit "b O"].filter keepML =
      [lit "-DOCSTART-", lit "aes O", ([] : Line), lit "b O"].filter keepML ∧
    [lit "-DOCSTART-", lit "aes B-ENCR", lit "b O"].filter keepML =
      [lit "-DOCSTART-", lit "aes O", ([] : Line), lit "b O"].filter keepML :=
  C5_malformed_preserved_amended (lit "Exp") (lit "VULNAME,VULID") [lit "aes"]
    (lit "ENCR") (lit "BIO") [lit "-DOCSTART-", lit "aes O", ([] : Line), lit "b O"]
    _ _ (by decide) (by decide)

/-! ### AliasResolver (TI-NERmergerV2.py): `normalize` (lines 144-148),
`resolve_entity` (lines 151-185)

The alias table is the in-memory dict `canonical -> {aliases, type}`,
modelled as an insertion-ordered association list.  The fuzzy scorer
(`rapidfuzz.process.extractOne` driving `fuzz.token_sort_ratio`) is an
external library; it is a parameter `scorer`, and `extractOne` keeps the
first choice of maximal score (strictly greater replaces), returning
`none` on an empty choice list (in which case the Python unpacking
`best_match, score, _ = ...` raises).  `re.sub(r'(rat|trojan|malware|tool|group|apt)$', ...)`
removes at most one suffix: the anchored pattern can match only once. -/

structure AliasEntry where
  aliases : List Line
  etype : Line
deriving DecidableEq

abbrev AliasTable := List (Line × AliasEntry)

structure ResolveRes where
  canonical : Line
  etype : Line
  matched : Line
  score : Option Nat
deriving DecidableEq

def normSuffixes : List Line :=
  [lit "rat", lit "trojan", lit "malware", lit "tool", lit "group", lit "apt"]

def normalize (t : Line) : Line :=
  let t1 := (pyLower t).filter (fun c =>
    (decide ('a' ≤ c) && decide (c ≤ 'z')) || (decide ('0' ≤ c) && decide (c ≤ '9')))
  match normSuffixes.find? (fun suf => suf.isSuffixOf t1) with
  | some suf => t1.take (t1.length - suf.length)
  | none => t1

/-- The exact stage: first entry (insertion order) one of whose aliases
normalizes to the normalized query. -/
def findExactIn (nq : Line) : AliasTable → Option (Line × Line × Line)
  | [] => none
  | (canon, info) :: rest =>
    match info.aliases.find? (fun a => normalize (pyLower a) = nq) with
    | some a => some (canon, info.etype, a)
    | none => findExactIn nq rest

/-- `[(alias, canonical) for canonical, info in alias_table.items() for alias in info["aliases"]]`. -/
def flatAliases (tab : AliasTable) : List (Line × Line) :=
  tab.flatMap (fun e => e.2.aliases.map (fun a => (a, e.1)))

/-- `process.extractOne(query, choices, scorer)`: highest score, first on
ties; `none` for an empty choice list. -/
def extractOne (scorer : Line → Line → Nat) (q : Line) :
    List Line → Option (Line × Nat)
  | [] => none
  | ch :: rest =>
    some (rest.foldl (fun best a =>
      if scorer q a > best.2 then (a, scorer q a) else best) (ch, scorer q ch))

def resolve_entity (scorer : Line → Line → Nat) (q : Line) (tab : AliasTable)
    (thr : Nat) : Option (Option ResolveRes) :=
  let nq := normalize (pyLower q)
  match findExactIn nq tab with
  | some (canon, ty, a) => some (some ⟨canon, ty, a, none⟩)
  | none =>
    let flat := flatAliases tab
    match extractOne scorer (pyLower q) (flat.map Prod.fst) with
    | none => none
    | some (best, score) =>
      if score ≥ thr then
        match flat.find? (fun p => p.1 = best) with
        | none => none
        | some p =>
          match tab.find? (fun e => e.1 = p.2) with
          | none => none
          | some e => some (some ⟨p.2, e.2.etype, best, some score⟩)
      else some none

/-! ### Claim C7 -/

theorem extractOne_foldl_mem (scorer : Line → Line → Nat) (q : Line) :
    ∀ (rest : List Line) (init : Line × Nat),
      (rest.foldl (fun best a =>
        if scorer q a > best.2 then (a, scorer q a) else best) init).1 = init.1 ∨
      (rest.foldl (fun best a =>
        if scorer q a > best.2 then (a, scorer q a) else best) init).1 ∈ rest := by
  intro rest
  induction rest with
  | nil => intro init; left; rfl
  | cons x xs ih =>
    intro init
    simp only [List.foldl_cons]
    rcases ih (if scorer q x > init.2 then (x, scorer q x) else init) with h | h
    · by_cases hx : scorer q x > init.2
      · right
        rw [h, if_pos hx]
        exact List.mem_cons_self x xs
      · left
        rw [h, if_neg hx]
    · right
      exact List.mem_cons_of_mem x h

theorem extractOne_mem (scorer : Line → Line → Nat) (q : Line) (cs : List Line)
    (b : Line) (s : Nat) (h : extractOne scorer q cs = some (b, s)) : b ∈ cs := by
  cases cs with
  | nil => cases h
  | cons ch rest =>
    have hb : b = (rest.foldl (fun best a =>
        if scorer q a > best.2 then (a, scorer q a) else best) (ch, scorer q ch)).1 := by
      have h2 := Option.some.inj h
      exact congrArg Prod.fst h2.symm
    rcases extractOne_foldl_mem scorer q rest (ch, scorer q ch) with h' | h'
    · rw [hb, h']
      exact List.mem_cons_self ch rest
    · rw [hb]
      exact List.mem_cons_of_mem ch h'

theorem flatAliases_mem (tab : AliasTable) (p : Line × Line)
    (h : p ∈ flatAliases tab) : ∃ e ∈ tab, e.1 = p.2 := by
  simp only [flatAliases, List.mem_flatMap, List.mem_map] at h
  obtain ⟨e, he, a, _, hpa⟩ := h
  exact ⟨e, he, by rw [← hpa]⟩

/-- Claim C7: `resolve_entity` consults the fuzzy stage only when the
exact stage finds nothing (an exact hit fixes the result, independently of
the scorer), and then accepts the single highest-scoring alias exactly
when its score reaches the threshold: below the threshold it returns
`None`, at or above it the match with that score and alias. -/
theorem C7_resolve_stages_and_threshold (scorer : Line → Line → Nat)
    (q : Line) (tab : AliasTable) (thr : Nat) :
    (∀ canon ty a, findExactIn (normalize (pyLower q)) tab = some (canon, ty, a) →
      resolve_entity scorer q tab thr = some (some ⟨canon, ty, a, none⟩)) ∧
    (findExactIn (normalize (pyLower q)) tab = none →
      ∀ best score,
        extractOne scorer (pyLower q) ((flatAliases tab).map Prod.fst) =
          some (best, score) →
        (score < thr → resolve_entity scorer q tab thr = some none) ∧
        (thr ≤ score → ∃ r, resolve_entity scorer q tab thr = some (some r) ∧
          r.matched = best ∧ r.score = some score)) := by
  constructor
  · intro canon ty a hx
    simp only [resolve_entity, hx]
  · intro hx best score hext
    constructor
    · intro hlt
      simp only [resolve_entity, hx, hext]
      rw [if_neg (by omega)]
    · intro hge
      have hmem : best ∈ (flatAliases tab).map Prod.fst :=
        extractOne_mem scorer (pyLower q) _ best score hext
      obtain ⟨p, hp, hpb⟩ : ∃ p ∈ flatAliases tab, p.1 = best := by
        simpa using hmem
      have hfind : ∃ p', (flatAliases tab).find? (fun p => p.1 = best) = some p' := by
        have : ((flatAliases tab).find? (fun p => decide (p.1 = best))).isSome := by
          rw [List.find?_isSome]
          exact ⟨p, hp, by simp [hpb]⟩
        cases hf : (flatAliases tab).find? (fun p => decide (p.1 = best)) with
        | none => rw [hf] at this; cases this
        | some p' => exact ⟨p', rfl⟩
      obtain ⟨p', hp'⟩ := hfind
      have hp'mem : p' ∈ flatAliases tab := List.mem_of_find?_eq_some hp'
      have hp'b : p'.1 = best := by
        have := List.find?_some hp'
        simpa using this
      obtain ⟨e, he, hec⟩ := flatAliases_mem tab p' hp'mem
      have hfinde : ∃ e', tab.find? (fun x => x.1 = p'.2) = some e' := by
        have : (tab.find? (fun x => decide (x.1 = p'.2))).isSome := by
          rw [List.find?_isSome]
          exact ⟨e, he, by simp [hec]⟩
        cases hf : tab.find? (fun x => decide (x.1 = p'.2)) with
        | none => rw [hf] at this; cases this
        | some e' => exact ⟨e', rfl⟩
      obtain ⟨e', he'⟩ := hfinde
      refine ⟨⟨p'.2, e'.2.etype, best, some score⟩, ?_, rfl, rfl⟩
      simp only [resolve_entity, hx, hext, ge_iff_le, hge, if_true, hp', he']

/-- Witness for C7 at the threshold boundary: with the default threshold
80 and a table without an exact match, a best fuzzy score of 80 is
accepted and a best score of 79 returns no match. -/
theorem C7_resolve_witness :
    resolve_entity (fun _ _ => 79) (lit "zzz")
      [(lit "emotet", ⟨[lit "emotet"], lit "malware"⟩)] 80 = some none ∧
    ∃ r, resolve_entity (fun _ _ => 80) (lit "zzz")
      [(lit "emotet", ⟨[lit "emotet"], lit "malware"⟩)] 80 = some (some r) ∧
      r.matched = lit "emotet" ∧ r.score = some 80 :=
  ⟨((C7_resolve_stages_and_threshold (fun _ _ => 79) (lit "zzz")
      [(lit "emotet", ⟨[lit "emotet"], lit "malware"⟩)] 80).2 (by decide)
      (lit "emotet") 79 (by decide)).1 (by decide),
   ((C7_resolve_stages_and_threshold (fun _ _ => 80) (lit "zzz")
      [(lit "emotet", ⟨[lit "emotet"], lit "malware"⟩)] 80).2 (by decide)
      (lit "emotet") 80 (by decide)).2 (by decide)⟩

/-! ### Category-to-label mapping: `get_type_by_name` (V2 lines 585-596)
and `software_label_update` (V2 lines 687-756)

`get_type_by_name` resolves against the alias table with the default
fuzzy threshold 80; `new_label[0]`/`[1]`/`[2]` can raise `IndexError`
(`List.get?`).  `software_label_update` walks `B`-spans through
`nextLine` with a manually advanced index (modelled by `spanWalk` over
the tail with a relative cursor `k`; the fuel argument,
`rest.length + 1`, always suffices because the cursor grows each step and
the walk stops once no well-formed line remains); `transform_output`
joins the rewritten span into a single element with embedded newlines,
exactly as the Python `"\n".join(...)` appended to `temp_dataset`.
Whitespace-only lines are dropped (`if line.split():` without else), and
`I`/`E` lines of the designated label match no branch and are dropped —
their span is re-emitted at its `B` token. -/

def get_type_by_name (scorer : Line → Line → Nat) (name dLab : Line)
    (newLab : List Line) (tab : AliasTable) : Option Line :=
  match resolve_entity scorer name tab 80 with
  | none => none
  | some none => some dLab
  | some (some r) =>
    if r.etype = lit "tool" then newLab.get? 0
    else if r.etype = lit "malware" then newLab.get? 1
    else newLab.get? 2

/-- `"\n".join(lines)`. -/
def joinNl (ls : List Line) : Line := List.intercalate ['\n'] ls

def transform_output (ent ty : Line) (labs : List Char) : Line :=
  joinNl (((splitWs ent).zip labs).map (fun p => mkLine p.1 (p.2 :: '-' :: ty)))

/-- The `while next_line is not None:` span walk of `software_label_update`,
collecting same-typed `I`/`E` tokens.  `next_label[0]` on an empty label
raises (`none`). -/
def spanWalk (ds : Line) (rest : List Line) :
    Nat → Nat → Line → List Char → Option (Line × List Char)
  | 0, _, ent, labs => some (ent, labs)
  | fuel + 1, k, ent, labs =>
    match (rest.drop k).find? isTok with
    | none => some (ent, labs)
    | some nl =>
      match (labelOf nl).head? with
      | none => none
      | some nb =>
        if nb = 'I' ∧ (labelOf nl).drop 2 = ds then
          spanWalk ds rest fuel (k + 1) (ent ++ ' ' :: wordOf nl) (labs ++ ['I'])
        else if nb = 'E' ∧ (labelOf nl).drop 2 = ds then
          spanWalk ds rest fuel (k + 1) (ent ++ ' ' :: wordOf nl) (labs ++ ['E'])
        else some (ent, labs)

def sluLine (scorer : Line → Line → Nat) (ds : Line) (newLab : List Line)
    (dLab : Line) (tab : AliasTable) (l : Line) (rest : List Line) :
    Option (List Line) :=
  if isBlank l then some []
  else if isTok l then
    let lab := labelOf l
    if lab.drop 2 = ds then
      match lab.head? with
      | none => none
      | some b =>
        if b = 'S' then
          match get_type_by_name scorer (wordOf l) dLab newLab tab with
          | none => none
          | some ty => some [mkLine (wordOf l) ('S' :: '-' :: ty)]
        else if b = 'B' then
          match spanWalk ds rest (rest.length + 1) 0 (wordOf l) ['B'] with
          | none => none
          | some (ent, labs) =>
            match get_type_by_name scorer ent dLab newLab tab with
            | none => none
            | some ty => some [transform_output ent ty labs]
        else some []
    else some [l]
  else some [l]

def slu_pass (scorer : Line → Line → Nat) (ds : Line) (newLab : List Line)
    (dLab : Line) (tab : AliasTable) : List Line → Option (List Line)
  | [] => some []
  | l :: rest => do
      let h ← sluLine scorer ds newLab dLab tab l rest
      let t ← slu_pass scorer ds newLab dLab tab rest
      pure (h ++ t)

def software_label_update (scorer : Line → Line → Nat) (dsRaw newRaw dLab : Line)
    (tab : AliasTable) (doc : List Line) : Option (List Line) :=
  let dsLabels := splitOnChar ',' dsRaw
  if dsLabels.all (fun t => pyLower t = lit "na") then some doc
  else
    let newLab := splitOnChar ',' newRaw
    dsLabels.foldlM (fun lines ds => slu_pass scorer ds newLab dLab tab lines) doc

/-- Claim C8: `get_type_by_name` maps category `tool` to the first target
label, `malware` to the second, anything else to the third, and a failed
resolution to the caller's default; and the spec's scenario — token
`WannaCry S-Mal`, alias table `wannacry / malware`, targets
`TOOL,MAL,APT`, default `MAL` — produces `WannaCry S-MAL` (for any fuzzy
scorer: the exact stage hits). -/
theorem C8_category_to_label (scorer : Line → Line → Nat) (name dLab t0 t1 t2 : Line)
    (tab : AliasTable) :
    (∀ r, resolve_entity scorer name tab 80 = some (some r) →
      get_type_by_name scorer name dLab [t0, t1, t2] tab =
        some (if r.etype = lit "tool" then t0
              else if r.etype = lit "malware" then t1 else t2)) ∧
    (resolve_entity scorer name tab 80 = some none →
      get_type_by_name scorer name dLab [t0, t1, t2] tab = some dLab) ∧
    (∀ scorer2 : Line → Line → Nat,
      software_label_update scorer2 (lit "Mal") (lit "TOOL,MAL,APT") (lit "MAL")
        [(lit "wannacry", ⟨[lit "wannacry", lit "wanna cry"], lit "malware"⟩)]
        [lit "WannaCry S-Mal"] = some [lit "WannaCry S-MAL"]) := by
  refine ⟨?_, ?_, ?_⟩
  · intro r hr
    simp only [get_type_by_name, hr]
    by_cases h1 : r.etype = lit "tool"
    · rw [if_pos h1, if_pos h1]; rfl
    · rw [if_neg h1, if_neg h1]
      by_cases h2 : r.etype = lit "malware"
      · rw [if_pos h2, if_pos h2]; rfl
      · rw [if_neg h2, if_neg h2]; rfl
  · intro hr
    simp only [get_type_by_name, hr]
  · intro scorer2
    rfl

/-- Witness for C8: a `tool`-typed entity gets the first target label, and
the spec's `WannaCry` scenario produces `WannaCry S-MAL`. -/
theorem C8_category_to_label_witness :
    get_type_by_name (fun _ _ => 0) (lit "Mimikatz") (lit "MAL")
      [lit "TOOL", lit "MAL", lit "APT"]
      [(lit "mimikatz", ⟨[lit "mimikatz"], lit "tool"⟩)] = some (lit "TOOL") ∧
    software_label_update (fun _ _ => 0) (lit "Mal") (lit "TOOL,MAL,APT") (lit "MAL")
      [(lit "wannacry", ⟨[lit "wannacry", lit "wanna cry"], lit "malware"⟩)]
      [lit "WannaCry S-Mal"] = some [lit "WannaCry S-MAL"] := by
  constructor
  · have h := (C8_category_to_label (fun _ _ => 0) (lit "Mimikatz") (lit "MAL")
      (lit "TOOL") (lit "MAL") (lit "APT")
      [(lit "mimikatz", ⟨[lit "mimikatz"], lit "tool"⟩)]).1
      ⟨lit "mimikatz", lit "tool", lit "mimikatz", none⟩ (by decide)
    simpa using h
  · exact (C8_category_to_label (fun _ _ => 0) (lit "x") (lit "x") (lit "x")
      (lit "x") (lit "x") []).2.2 (fun _ _ => 0)

/-! ### IoC discovery: `discover_low_iocs` (lines 733-799)

The IP and e-mail regexes are searched (`re.search`) inside the token;
both are embedded as decidable existential scans over match positions
with the `\\b` boundary semantics of `boundaryAt`.  `urlparse(word).netloc`
is non-empty exactly when the word (after an optional `scheme:` fragment,
a leading alphabetic character followed by alphanumerics/`+`/`-`/`.`)
continues with `//` followed by a character other than `/`, `?` or `#`.
An output scheme other than BIO/BIOES (after `.upper()`) leaves `tag`
unbound — `NameError` on first rewrite, embedded as `none`. -/

def charRun (p : Char → Bool) (s : Line) (i n : Nat) : Bool :=
  (List.range n).all (fun k =>
    match s[i + k]? with
    | some c => p c
    | none => false)

/-- One candidate match of `\\b(?:\\d{1,3}\\.){3}\\d{1,3}\\b` at position `i`
with segment lengths `a`, `b`, `c2`, `d`. -/
def ipMatchAt (s : Line) (i a b c2 d : Nat) : Bool :=
  boundaryAt s i &&
  charRun Char.isDigit s i a && decide (s[i + a]? = some '.') &&
  charRun Char.isDigit s (i + a + 1) b && decide (s[i + a + 1 + b]? = some '.') &&
  charRun Char.isDigit s (i + a + 2 + b) c2 &&
  decide (s[i + a + 2 + b + c2]? = some '.') &&
  charRun Char.isDigit s (i + a + 3 + b + c2) d &&
  boundaryAt s (i + a + 3 + b + c2 + d)

def ipSearch (w : Line) : Bool :=
  (List.range (w.length + 1)).any (fun i =>
    ([1, 2, 3] : List Nat).any (fun a => ([1, 2, 3] : List Nat).any (fun b =>
      ([1, 2, 3] : List Nat).any (fun c2 => ([1, 2, 3] : List Nat).any (fun d =>
        ipMatchAt w i a b c2 d)))))

/-- `[-a-zA-Z0-9._%+-]`. -/
def emailLocalChar (c : Char) : Bool :=
  c.isAlphanum || c = '-' || c = '.' || c = '_' || c = '%' || c = '+'

/-- `[A-Za-z0-9.-]`. -/
def emailDomChar (c : Char) : Bool := c.isAlphanum || c = '.' || c = '-'

/-- `[A-Z|a-z]` (the `|` is a literal member of the class). -/
def emailTldChar (c : Char) : Bool := c.isAlpha || c = '|'

def emailMatchAt (s : Line) (i la ld lt : Nat) : Bool :=
  decide (1 ≤ la) && decide (1 ≤ ld) && decide (2 ≤ lt) &&
  boundaryAt s i &&
  charRun emailLocalChar s i la && decide (s[i + la]? = some '@') &&
  charRun emailDomChar s (i + la + 1) ld &&
  decide (s[i + la + 1 + ld]? = some '.') &&
  charRun emailTldChar s (i + la + 2 + ld) lt &&
  boundaryAt s (i + la + 2 + ld + lt)

def emailSearch (w : Line) : Bool :=
  (List.range (w.length + 1)).any (fun i =>
    (List.range (w.length + 1)).any (fun la =>
      (List.range (w.length + 1)).any (fun ld =>
        (List.range (w.length + 1)).any (fun lt => emailMatchAt w i la ld lt))))

def isSchemeChar (c : Char) : Bool := c.isAlphanum || c = '+' || c = '-' || c = '.'

/-- Remove a leading `scheme:` fragment the way `urlsplit` does (a colon
at position 0, or an invalid scheme, strips nothing). -/
def stripScheme (w : Line) : Line :=
  let i := w.findIdx (· = ':')
  if i < w.length then
    match w.take i with
    | [] => w
    | c0 :: restPre => if c0.isAlpha && restPre.all isSchemeChar then w.drop (i + 1) else w
  else w

/-- `urlparse(word).netloc` is truthy. -/
def urlNetloc (w : Line) : Bool :=
  match stripScheme w with
  | '/' :: '/' :: c0 :: _ => !(c0 = '/' || c0 = '?' || c0 = '#')
  | _ => false

def common_protocols : List Line :=
  (["RDP", "SSH", "HTTP", "HTTPS", "TLS", "FTP", "SMTP", "POP3", "SFTP",
    "IMAP", "SSL", "POP", "UDP", "TCP", "IPV4", "IPV6", "OPENVPN", "IPSEC",
    "KEBEROS", "SNMP", "DTLS", "SASE", "TELNET"]).map lit

def tagOfScheme (tagging : Line) : Option Char :=
  if pyUpper tagging = lit "BIO" then some 'B'
  else if pyUpper tagging = lit "BIOES" then some 'S' else none

def locsLine (ipL urlL fileL domL emailL protL : Line) (tag : Option Char)
    (l : Line) : Option Line :=
  if isTok l then
    if labelOf l = ['O'] ∧ wordOf l ≠ ['.'] then
      let w := wordOf l
      if ipSearch w then
        match tag with
        | none => none
        | some tg => some (mkLine w (tg :: '-' :: ipL))
      else if emailSearch w then
        match tag with
        | none => none
        | some tg => some (mkLine w (tg :: '-' :: emailL))
      else
        match sampleFile w none with
        | some nl =>
          if nl = lit "FILE" then
            match tag with
            | none => none
            | some tg => some (mkLine w (tg :: '-' :: fileL))
          else
            match tag with
            | none => none
            | some tg => some (mkLine w (tg :: '-' :: nl))
        | none =>
          if urlNetloc w then
            match tag with
            | none => none
            | some tg => some (mkLine w (tg :: '-' :: urlL))
          else if '.' ∈ w ∧ ¬ (w.getLast? = some '.') then
            match tag with
            | none => none
            | some tg => some (mkLine w (tg :: '-' :: domL))
          else if (pyUpper w) ∈ common_protocols then
            match tag with
            | none => none
            | some tg => some (mkLine w (tg :: '-' :: protL))
          else some (mkLine w ['O'])
    else some l
  else some l

def discover_low_iocs (ipL urlL fileL domL emailL protL tagging : Line)
    (doc : List Line) : Option (List Line) :=
  if ([ipL, urlL, fileL, domL, emailL, protL]).all (fun t => pyLower t = lit "na")
  then some doc
  else mapOptM (locsLine ipL urlL fileL domL emailL protL (tagOfScheme tagging)) doc

/-! ### Claim C10 -/

/-- The frame relation of `discover_low_iocs`: a line is unchanged unless
it is well-formed, labelled exactly `O` and its token is not `.`; such a
line either stays unchanged or keeps its token and receives the label
`B-TYPE` (BIO) or `S-TYPE` (BIOES). -/
def IocFrame (tagging : Line) (a b : Line) : Prop :=
  if isTok a = true ∧ labelOf a = ['O'] ∧ wordOf a ≠ ['.'] then
    b = a ∨ ∃ tg T, b = mkLine (wordOf a) (tg :: '-' :: T) ∧
      ((pyUpper tagging = lit "BIO" ∧ tg = 'B') ∨
       (pyUpper tagging = lit "BIOES" ∧ tg = 'S'))
  else b = a

theorem iocFrame_refl (tagging a : Line) : IocFrame tagging a a := by
  unfold IocFrame
  split
  · exact Or.inl rfl
  · rfl

theorem tagOfScheme_cases (tagging : Line) (tg : Char)
    (h : tagOfScheme tagging = some tg) :
    (pyUpper tagging = lit "BIO" ∧ tg = 'B') ∨
    (pyUpper tagging = lit "BIOES" ∧ tg = 'S') := by
  unfold tagOfScheme at h
  split at h
  · exact Or.inl ⟨by assumption, (Option.some.inj h).symm⟩
  · split at h
    · exact Or.inr ⟨by assumption, (Option.some.inj h).symm⟩
    · cases h

theorem iocFrame_rewrite (tagging a : Line) (tg : Char) (T : Line)
    (hT : isTok a = true) (hO : labelOf a = ['O']) (hw : wordOf a ≠ ['.'])
    (htg : tagOfScheme tagging = some tg) :
    IocFrame tagging a (mkLine (wordOf a) (tg :: '-' :: T)) := by
  unfold IocFrame
  rw [if_pos ⟨hT, hO, hw⟩]
  exact Or.inr ⟨tg, T, rfl, tagOfScheme_cases tagging tg htg⟩

theorem locsLine_frame (ipL urlL fileL domL emailL protL tagging : Line)
    (a b : Line)
    (h : locsLine ipL urlL fileL domL emailL protL (tagOfScheme tagging) a = some b) :
    IocFrame tagging a b := by
  simp only [locsLine] at h
  split at h
  · rename_i hT
    split at h
    · rename_i hC
      have hre : ∀ T : Line,
          (match tagOfScheme tagging with
            | none => none
            | some tg => some (mkLine (wordOf a) (tg :: '-' :: T))) = some b →
          IocFrame tagging a b := by
        intro T hm
        cases htg : tagOfScheme tagging with
        | none => rw [htg] at hm; cases hm
        | some tg =>
          rw [htg] at hm
          cases hm
          exact iocFrame_rewrite tagging a tg T hT hC.1 hC.2 htg
      split at h
      · exact hre ipL h
      · split at h
        · exact hre emailL h
        · split at h
          · rename_i nl hnl
            split at h
            · exact hre fileL h
            · exact hre nl h
          · split at h
            · exact hre urlL h
            · split at h
              · exact hre domL h
              · split at h
                · exact hre protL h
                · cases h
                  unfold IocFrame
                  rw [if_pos ⟨hT, hC.1, hC.2⟩]
                  left
                  rw [← hC.1]
                  exact recon a hT
    · cases h
      exact iocFrame_refl tagging a
  · cases h
    exact iocFrame_refl tagging a

/-- Claim C10: `discover_low_iocs` changes only well-formed lines whose
label is exactly `O` and whose token is not `.`; every other line is
unchanged, and a rewritten line keeps its token and receives `B-TYPE`
under BIO or `S-TYPE` under BIOES. -/
theorem C10_discover_low_iocs_frame (ipL urlL fileL domL emailL protL tagging : Line)
    (doc out : List Line)
    (h : discover_low_iocs ipL urlL fileL domL emailL protL tagging doc = some out) :
    List.Forall₂ (IocFrame tagging) doc out := by
  simp only [discover_low_iocs] at h
  split at h
  · cases h
    exact List.forall₂_same.mpr (fun a _ => iocFrame_refl tagging a)
  · exact mapOptM_forall₂ _ _ (locsLine_frame ipL urlL fileL domL emailL protL tagging)
      doc out h

/-- Witness for C10, the spec's own example: `192.168.1.1 O` under BIO
with `IP` configured becomes `192.168.1.1 B-IP`; a non-`O` line and a
malformed line pass through unchanged. -/
theorem C10_discover_low_iocs_witness :
    List.Forall₂ (IocFrame (lit "BIO"))
      [lit "192.168.1.1 O", lit "x B-Mal", lit ""]
      [lit "192.168.1.1 B-IP", lit "x B-Mal", lit ""] :=
  C10_discover_low_iocs_frame (lit "IP") (lit "na") (lit "na") (lit "na")
    (lit "na") (lit "na") (lit "BIO")
    [lit "192.168.1.1 O", lit "x B-Mal", lit ""] _ (by decide)

/-! ### ConsistencyCorrector: `correct_mislabeling` (lines 1030-1075)

Pass 1 builds the `entity_labels` memo (an insertion dict: insert only
when the word is absent, so an association list with cons insertion has
the same lookup behaviour): every `S-` line qualifies; a `B-` line
qualifies when the next labeled line's label starts with `O`; a
qualifying line is rewritten to the memoized label (first seen wins).
Pass 2 rewrites every line labelled exactly `O` whose word is memoized.
Both passes rebuild well-formed lines as `f"{word} {label}"`, which is
the identity on them. -/

abbrev Memo := List (Line × Line)

def memoLookup (m : Memo) (k : Line) : Option Line :=
  (m.find? (fun p => p.1 = k)).map Prod.snd

def fixStep (l : Line) (rest : List Line) (m : Memo) : Line × Memo :=
  if isTok l then
    let w := wordOf l
    let lab := labelOf l
    if lab.take 2 = ['S', '-'] then
      match memoLookup m w with
      | some v => (mkLine w v, m)
      | none => (mkLine w lab, (w, lab) :: m)
    else if lab.take 2 = ['B', '-'] then
      match nextTok rest with
      | some nl =>
        if (labelOf nl).head? = some 'O' then
          match memoLookup m w with
          | some v => (mkLine w v, m)
          | none => (mkLine w lab, (w, lab) :: m)
        else (mkLine w lab, m)
      | none => (mkLine w lab, m)
    else (mkLine w lab, m)
  else (l, m)

def fixPass1 : List Line → Memo → List Line × Memo
  | [], m => ([], m)
  | l :: rest, m =>
    let p := fixStep l rest m
    let q := fixPass1 rest p.2
    (p.1 :: q.1, q.2)

def fixLine2 (m : Memo) (l : Line) : Line :=
  if isTok l then
    if labelOf l = ['O'] then
      match memoLookup m (wordOf l) with
      | some v => mkLine (wordOf l) v
      | none => l
    else l
  else l

def fixPass2 (m : Memo) (doc : List Line) : List Line := doc.map (fixLine2 m)

def correct_mislabeling (doc : List Line) : List Line :=
  let p := fixPass1 doc []
  fixPass2 p.2 p.1

/-! ### Claim C9: helper notions -/

/-- The memo only ever stores labels starting with `S-` or `B-`. -/
def MemoOK (m : Memo) : Prop :=
  ∀ p ∈ m, p.2.take 2 = ['S', '-'] ∨ p.2.take 2 = ['B', '-']

/-- The per-line data the pass-1 branch decisions depend on: is the line
well-formed, and does its label start with `O`. -/
def profO (l : Line) : Bool × Bool :=
  (isTok l, decide ((labelOf l).head? = some 'O'))

/-- A line qualifies for the pass-1 memo at its position: `S-` labelled,
or `B-` labelled with the next labeled line `O`-starting. -/
def qualB (l : Line) (rest : List Line) : Bool :=
  isTok l &&
  (decide ((labelOf l).take 2 = ['S', '-']) ||
   (decide ((labelOf l).take 2 = ['B', '-']) &&
     match nextTok rest with
     | some nl => decide ((labelOf nl).head? = some 'O')
     | none => false))

/-- Every qualifying line of the list agrees with the memo `m`. -/
def QDoc (m : Memo) : List Line → Prop
  | [] => True
  | l :: rest =>
    (qualB l rest = true → memoLookup m (wordOf l) = some (labelOf l)) ∧ QDoc m rest

def MemoSub (m2 m : Memo) : Prop :=
  ∀ k v, memoLookup m2 k = some v → memoLookup m k = some v

/-- No `O`-labelled line of the list has a memoized word. -/
def NoMemoO (m : Memo) (out : List Line) : Prop :=
  ∀ l ∈ out, isTok l = true → labelOf l = ['O'] → memoLookup m (wordOf l) = none

theorem take2_head (l : Line) (a b : Char) (h : l.take 2 = [a, b]) :
    l.head? = some a := by
  cases l with
  | nil => simp at h
  | cons x t =>
    cases t with
    | nil => simp at h
    | cons y u =>
      simp only [List.take_succ_cons, List.take_one, List.cons.injEq] at h
      simp [h.1]

theorem memoLookup_mem (m : Memo) (k v : Line) (h : memoLookup m k = some v) :
    ∃ p ∈ m, p.1 = k ∧ p.2 = v := by
  simp only [memoLookup, Option.map_eq_some'] at h
  obtain ⟨p, hp, hv⟩ := h
  refine ⟨p, List.mem_of_find?_eq_some hp, ?_, hv⟩
  have := List.find?_some hp
  simpa using this

theorem memoOK_val (m : Memo) (hm : MemoOK m) (k v : Line)
    (h : memoLookup m k = some v) :
    v.take 2 = ['S', '-'] ∨ v.take 2 = ['B', '-'] := by
  obtain ⟨p, hpm, _, hpv⟩ := memoLookup_mem m k v h
  rw [← hpv]
  exact hm p hpm

theorem memoLookup_cons_self (m : Memo) (w lab : Line) :
    memoLookup ((w, lab) :: m) w = some lab := by
  simp [memoLookup, List.find?_cons]

theorem memoLookup_cons_of_lookup (m : Memo) (w lab k v : Line)
    (hw : memoLookup m w = none) (h : memoLookup m k = some v) :
    memoLookup ((w, lab) :: m) k = some v := by
  by_cases hk : w = k
  · subst hk
    rw [hw] at h
    cases h
  · have hd : decide (w = k) = false := by simp [hk]
    simp only [memoLookup, List.find?_cons] at h ⊢
    rw [hd]
    exact h

theorem qual_take2 (l : Line) (rest : List Line) (hq : qualB l rest = true) :
    (labelOf l).take 2 = ['S', '-'] ∨ (labelOf l).take 2 = ['B', '-'] := by
  simp only [qualB, Bool.and_eq_true, Bool.or_eq_true, decide_eq_true_eq] at hq
  rcases hq.2 with h | ⟨h, _⟩
  · exact Or.inl h
  · exact Or.inr h

/-- The four possible outcomes of one iteration of pass 1. -/
theorem fixStep_spec (l : Line) (rest : List Line) (m : Memo) :
    (isTok l = false ∧ fixStep l rest m = (l, m)) ∨
    (isTok l = true ∧ ∃ v, memoLookup m (wordOf l) = some v ∧ qualB l rest = true ∧
        fixStep l rest m = (mkLine (wordOf l) v, m)) ∨
    (isTok l = true ∧ memoLookup m (wordOf l) = none ∧ qualB l rest = true ∧
        fixStep l rest m = (mkLine (wordOf l) (labelOf l), (wordOf l, labelOf l) :: m)) ∨
    (isTok l = true ∧ qualB l rest = false ∧
        fixStep l rest m = (mkLine (wordOf l) (labelOf l), m)) := by
  by_cases hT : isTok l
  · by_cases hS : (labelOf l).take 2 = ['S', '-']
    · rcases Option.eq_none_or_eq_some (memoLookup m (wordOf l)) with hlk | ⟨v, hlk⟩
      · refine Or.inr (Or.inr (Or.inl ⟨hT, hlk, by simp [qualB, hT, hS], ?_⟩))
        simp [fixStep, hT, hS, hlk]
      · refine Or.inr (Or.inl ⟨hT, v, hlk, by simp [qualB, hT, hS], ?_⟩)
        simp [fixStep, hT, hS, hlk]
    · by_cases hB : (labelOf l).take 2 = ['B', '-']
      · rcases Option.eq_none_or_eq_some (nextTok rest) with hnx | ⟨nl, hnx⟩
        · refine Or.inr (Or.inr (Or.inr ⟨hT, by simp [qualB, hT, hS, hB, hnx], ?_⟩))
          simp [fixStep, hT, hS, hB, hnx]
        · by_cases hO : (labelOf nl).head? = some 'O'
          · rcases Option.eq_none_or_eq_some (memoLookup m (wordOf l)) with hlk | ⟨v, hlk⟩
            · refine Or.inr (Or.inr (Or.inl ⟨hT, hlk,
                by simp [qualB, hT, hS, hB, hnx, hO], ?_⟩))
              simp [fixStep, hT, hS, hB, hnx, hO, hlk]
            · refine Or.inr (Or.inl ⟨hT, v, hlk,
                by simp [qualB, hT, hS, hB, hnx, hO], ?_⟩)
              simp [fixStep, hT, hS, hB, hnx, hO, hlk]
          · refine Or.inr (Or.inr (Or.inr ⟨hT,
              by simp [qualB, hT, hS, hB, hnx, hO], ?_⟩))
            simp [fixStep, hT, hS, hB, hnx, hO]
      · refine Or.inr (Or.inr (Or.inr ⟨hT, by simp [qualB, hT, hS, hB], ?_⟩))
        simp [fixStep, hT, hS, hB]
  · left
    refine ⟨by simpa using hT, ?_⟩
    simp [fixStep, hT]

theorem fixStep_memoOK (l : Line) (rest : List Line) (m : Memo) (hm : MemoOK m) :
    MemoOK (fixStep l rest m).2 := by
  rcases fixStep_spec l rest m with ⟨_, he⟩ | ⟨_, v, _, _, he⟩ |
    ⟨hT, _, hq, he⟩ | ⟨_, _, he⟩ <;> rw [he]
  · exact hm
  · exact hm
  · intro p hp
    rcases List.mem_cons.mp hp with rfl | hpm
    · exact qual_take2 l rest hq
    · exact hm p hpm
  · exact hm

theorem profO_rebuild (l : Line) (hT : isTok l = true) :
    profO (mkLine (wordOf l) (labelOf l)) = profO l := by
  simp [profO, isTok_mkLine, hT, labelOf_mkLine_of_word]

theorem head_not_O_of_take2 (v : Line)
    (h : v.take 2 = ['S', '-'] ∨ v.take 2 = ['B', '-']) :
    decide (v.head? = some 'O') = false := by
  rcases h with h | h <;>
  · rw [take2_head v _ _ h]
    decide

theorem fixStep_prof (l : Line) (rest : List Line) (m : Memo) (hm : MemoOK m) :
    profO (fixStep l rest m).1 = profO l := by
  rcases fixStep_spec l rest m with ⟨_, he⟩ | ⟨hT, v, hlk, hq, he⟩ |
    ⟨hT, _, _, he⟩ | ⟨hT, _, he⟩
  · rw [he]
  · rw [he]
    have hv := memoOK_val m hm _ v hlk
    have hl := qual_take2 l rest hq
    show profO (mkLine (wordOf l) v) = profO l
    simp only [profO, isTok_mkLine, hT, labelOf_mkLine_of_word]
    rw [head_not_O_of_take2 v hv, head_not_O_of_take2 _ hl]
  · rw [he]
    exact profO_rebuild l hT
  · rw [he]
    exact profO_rebuild l hT

theorem fixStep_extends (l : Line) (rest : List Line) (m : Memo) (k v : Line)
    (h : memoLookup m k = some v) :
    memoLookup (fixStep l rest m).2 k = some v := by
  rcases fixStep_spec l rest m with ⟨_, he⟩ | ⟨_, v', _, _, he⟩ |
    ⟨_, hlk, _, he⟩ | ⟨_, _, he⟩ <;> rw [he]
  · exact h
  · exact h
  · exact memoLookup_cons_of_lookup m _ _ k v hlk h
  · exact h

theorem fixPass1_memoOK (doc : List Line) : ∀ (m : Memo), MemoOK m →
    MemoOK (fixPass1 doc m).2 := by
  induction doc with
  | nil => intro m hm; exact hm
  | cons l rest ih =>
    intro m hm
    simp only [fixPass1]
    exact ih _ (fixStep_memoOK l rest m hm)

theorem fixPass1_prof (doc : List Line) : ∀ (m : Memo), MemoOK m →
    (fixPass1 doc m).1.map profO = doc.map profO := by
  induction doc with
  | nil => intro m _; rfl
  | cons l rest ih =>
    intro m hm
    simp only [fixPass1, List.map_cons]
    rw [fixStep_prof l rest m hm, ih _ (fixStep_memoOK l rest m hm)]

theorem fixPass1_extends (doc : List Line) : ∀ (m : Memo) (k v : Line),
    memoLookup m k = some v → memoLookup (fixPass1 doc m).2 k = some v := by
  induction doc with
  | nil => intro m k v h; exact h
  | cons l rest ih =>
    intro m k v h
    simp only [fixPass1]
    exact ih _ k v (fixStep_extends l rest m k v h)

theorem nextTok_prof : ∀ (l1 l2 : List Line), l1.map profO = l2.map profO →
    (nextTok l1).map profO = (nextTok l2).map profO := by
  intro l1
  induction l1 with
  | nil =>
    intro l2 h
    cases l2 with
    | nil => rfl
    | cons b u => simp at h
  | cons a t ih =>
    intro l2 h
    cases l2 with
    | nil => simp at h
    | cons b u =>
      simp only [List.map_cons, List.cons.injEq] at h
      have hab : profO a = profO b := h.1
      have hfst : isTok a = isTok b := congrArg Prod.fst hab
      by_cases hTa : isTok a = true
      · rw [nextTok, nextTok, List.find?_cons_of_pos _ hTa,
          List.find?_cons_of_pos _ (hfst ▸ hTa)]
        simpa using hab
      · have hTa' : isTok a = false := by simpa using hTa
        rw [nextTok, nextTok, List.find?_cons_of_neg _ (by simp [hTa']),
          List.find?_cons_of_neg _ (by simp [hfst ▸ hTa'])]
        exact ih u h.2

theorem qualB_congr (l : Line) (r1 r2 : List Line)
    (h : r1.map profO = r2.map profO) : qualB l r1 = qualB l r2 := by
  have hn := nextTok_prof r1 r2 h
  simp only [qualB]
  cases h1 : nextTok r1 with
  | none =>
    cases h2 : nextTok r2 with
    | none => rfl
    | some nl2 => rw [h1, h2] at hn; simp at hn
  | some nl1 =>
    cases h2 : nextTok r2 with
    | none => rw [h1, h2] at hn; simp at hn
    | some nl2 =>
      rw [h1, h2] at hn
      simp only [Option.map_some', Option.some.injEq] at hn
      have h2' := congrArg Prod.snd hn
      simp only [profO] at h2'
      exact congrArg (fun z => isTok l &&
        (decide ((labelOf l).take 2 = ['S', '-']) ||
         (decide ((labelOf l).take 2 = ['B', '-']) && z))) h2'

theorem memoLookup_cons_ne (m : Memo) (w lab k : Line) (hk : w ≠ k) :
    memoLookup ((w, lab) :: m) k = memoLookup m k := by
  have hd : decide (w = k) = false := by simp [hk]
  simp only [memoLookup, List.find?_cons]
  rw [hd]

theorem qualB_rebuild (l : Line) (rest : List Line) (hT : isTok l = true) :
    qualB (mkLine (wordOf l) (labelOf l)) rest = qualB l rest := by
  simp [qualB, isTok_mkLine, hT, labelOf_mkLine_of_word]

/-- After pass 1, every line of the output that qualifies at its position
agrees with the final memo. -/
theorem fixPass1_QDoc (doc : List Line) : ∀ (m : Memo), MemoOK m →
    QDoc (fixPass1 doc m).2 (fixPass1 doc m).1 := by
  induction doc with
  | nil => intro m _; trivial
  | cons l rest ih =>
    intro m hm
    have hm1 : MemoOK (fixStep l rest m).2 := fixStep_memoOK l rest m hm
    simp only [fixPass1]
    refine ⟨?_, ih _ hm1⟩
    intro hqo
    rcases fixStep_spec l rest m with ⟨hF, he⟩ | ⟨hT, v, hlk, hqual, he⟩ |
      ⟨hT, hlk, hqual, he⟩ | ⟨hT, hqual, he⟩
    · rw [he] at hqo
      simp [qualB, hF] at hqo
    · rw [he]
      rw [he] at hqo
      rw [wordOf_mkLine_of_word, labelOf_mkLine_of_word]
      exact fixPass1_extends rest _ _ v hlk
    · rw [he]
      rw [he] at hqo
      rw [wordOf_mkLine_of_word, labelOf_mkLine_of_word]
      exact fixPass1_extends rest _ _ _ (memoLookup_cons_self m (wordOf l) (labelOf l))
    · exfalso
      rw [he] at hqo
      have hqo' : qualB (mkLine (wordOf l) (labelOf l)) (fixPass1 rest m).1 = true := hqo
      have hprof : (fixPass1 rest m).1.map profO = rest.map profO := by
        have h0 : (fixPass1 rest (fixStep l rest m).2).1.map profO = rest.map profO :=
          fixPass1_prof rest _ hm1
        rw [he] at h0
        exact h0
      rw [qualB_congr _ _ rest hprof, qualB_rebuild l rest hT, hqual] at hqo'
      cases hqo'

/-- The four possible outcomes of one pass-2 rewrite. -/
theorem fixLine2_spec (m : Memo) (l : Line) :
    fixLine2 m l = l ∨
    (isTok l = true ∧ labelOf l = ['O'] ∧ ∃ v, memoLookup m (wordOf l) = some v ∧
      fixLine2 m l = mkLine (wordOf l) v) := by
  by_cases hT : isTok l
  · by_cases hO : labelOf l = ['O']
    · rcases Option.eq_none_or_eq_some (memoLookup m (wordOf l)) with hlk | ⟨v, hlk⟩
      · left
        simp [fixLine2, hT, hO, hlk]
      · right
        exact ⟨hT, hO, v, hlk, by simp [fixLine2, hT, hO, hlk]⟩
    · left
      simp [fixLine2, hT, hO]
  · left
    simp [fixLine2, hT]

theorem fixLine2_isTok (m : Memo) (l : Line) : isTok (fixLine2 m l) = isTok l := by
  rcases fixLine2_spec m l with he | ⟨hT, _, v, _, he⟩
  · rw [he]
  · rw [he, isTok_mkLine, hT]

theorem fixLine2_headO (m : Memo) (hm : MemoOK m) (l : Line)
    (h : decide ((labelOf (fixLine2 m l)).head? = some 'O') = true) :
    decide ((labelOf l).head? = some 'O') = true := by
  rcases fixLine2_spec m l with he | ⟨hT, hO, v, hlk, he⟩
  · rw [he] at h
    exact h
  · rw [he, labelOf_mkLine_of_word] at h
    rw [head_not_O_of_take2 v (memoOK_val m hm _ v hlk)] at h
    cases h

theorem nextTok_pass2 (m : Memo) : ∀ (rest : List Line),
    nextTok (fixPass2 m rest) = (nextTok rest).map (fixLine2 m) := by
  intro rest
  induction rest with
  | nil => rfl
  | cons a t ih =>
    by_cases hT : isTok a = true
    · rw [nextTok, fixPass2, List.map_cons,
        List.find?_cons_of_pos _ (by rw [fixLine2_isTok]; exact hT),
        nextTok, List.find?_cons_of_pos _ hT]
      rfl
    · have hT' : isTok a = false := by simpa using hT
      rw [nextTok, fixPass2, List.map_cons,
        List.find?_cons_of_neg _ (by rw [fixLine2_isTok, hT']; simp),
        nextTok, List.find?_cons_of_neg _ (by rw [hT']; simp)]
      exact ih

/-- Qualification can only shrink under pass 2 (labels never become
`O`-starting). -/
theorem qual_pass2_imp (m : Memo) (hm : MemoOK m) (l : Line) (rest : List Line)
    (h : qualB l (fixPass2 m rest) = true) : qualB l rest = true := by
  simp only [qualB, Bool.and_eq_true, Bool.or_eq_true] at h ⊢
  refine ⟨h.1, ?_⟩
  rcases h.2 with hS | ⟨hB, hnx⟩
  · exact Or.inl hS
  · refine Or.inr ⟨hB, ?_⟩
    rw [nextTok_pass2 m rest] at hnx
    cases he : nextTok rest with
    | none =>
      rw [he] at hnx
      cases hnx
    | some nl =>
      rw [he] at hnx
      have h1 : decide ((labelOf (fixLine2 m nl)).head? = some 'O') = true := hnx
      exact fixLine2_headO m hm nl h1

theorem pass2_QDoc (m : Memo) (hm : MemoOK m) : ∀ (t : List Line), QDoc m t →
    QDoc m (fixPass2 m t) := by
  intro t
  induction t with
  | nil => intro _; trivial
  | cons l rest ih =>
    intro hq
    refine ⟨?_, ih hq.2⟩
    intro hqual
    rcases fixLine2_spec m l with he | ⟨hT, hO, v, hlk, he⟩
    · rw [he] at hqual ⊢
      exact hq.1 (qual_pass2_imp m hm l rest hqual)
    · rw [he]
      rw [wordOf_mkLine_of_word, labelOf_mkLine_of_word]
      exact hlk

theorem pass2_NoMemoO (m : Memo) (hm : MemoOK m) (t : List Line) :
    NoMemoO m (fixPass2 m t) := by
  intro l hl hT hO
  obtain ⟨a, ha, rfl⟩ := List.mem_map.mp hl
  rcases fixLine2_spec m a with he | ⟨hTa, hOa, v, hlk, he⟩
  · rw [he] at hT hO ⊢
    rcases Option.eq_none_or_eq_some (memoLookup m (wordOf a)) with hlk | ⟨v, hlk⟩
    · exact hlk
    · exfalso
      have he2 : fixLine2 m a = mkLine (wordOf a) v := by
        simp [fixLine2, hT, hO, hlk]
      rw [he] at he2
      have hv : labelOf a = v := by
        conv_lhs => rw [he2]
        rw [labelOf_mkLine_of_word]
      rw [hO] at hv
      rcases memoOK_val m hm _ v hlk with h2 | h2 <;> rw [← hv] at h2 <;> simp at h2
  · rw [he] at hO ⊢
    exfalso
    rw [labelOf_mkLine_of_word] at hO
    rcases memoOK_val m hm _ v hlk with h2 | h2 <;> rw [hO] at h2 <;> simp at h2

/-- Running pass 1 again over pass-1/2 output changes nothing, and its
memo stays within the first run's memo. -/
theorem pass1_id (m : Memo) : ∀ (out : List Line) (m2 : Memo), MemoSub m2 m →
    QDoc m out → (fixPass1 out m2).1 = out ∧ MemoSub (fixPass1 out m2).2 m := by
  intro out
  induction out with
  | nil => intro m2 hsub _; exact ⟨rfl, hsub⟩
  | cons l rest ih =>
    intro m2 hsub hq
    have hstep : (fixStep l rest m2).1 = l ∧ MemoSub (fixStep l rest m2).2 m := by
      rcases fixStep_spec l rest m2 with ⟨hF, he⟩ | ⟨hT, v, hlk, hqual, he⟩ |
        ⟨hT, hlk, hqual, he⟩ | ⟨hT, hqual, he⟩
      · rw [he]
        exact ⟨rfl, hsub⟩
      · have hml := hq.1 hqual
        have hv : v = labelOf l := by
          have h1 := hsub _ _ hlk
          rw [hml] at h1
          exact (Option.some.inj h1).symm
        rw [he, hv]
        exact ⟨recon l hT, hsub⟩
      · have hml := hq.1 hqual
        rw [he]
        refine ⟨recon l hT, ?_⟩
        intro k v hkv
        by_cases hk : wordOf l = k
        · subst hk
          rw [memoLookup_cons_self] at hkv
          rw [← Option.some.inj hkv]
          exact hml
        · rw [memoLookup_cons_ne m2 _ _ k hk] at hkv
          exact hsub k v hkv
      · rw [he]
        exact ⟨recon l hT, hsub⟩
    obtain ⟨ho, hsub1⟩ := hstep
    obtain ⟨hos, hsubf⟩ := ih (fixStep l rest m2).2 hsub1 hq.2
    simp only [fixPass1]
    exact ⟨by rw [ho, hos], hsubf⟩

/-- Running pass 2 again (with any memo inside the first run's memo) over
output with no memoized `O` lines changes nothing. -/
theorem pass2_id (m m2 : Memo) (hsub : MemoSub m2 m) :
    ∀ (out : List Line), NoMemoO m out → fixPass2 m2 out = out := by
  intro out
  induction out with
  | nil => intro _; rfl
  | cons l rest ih =>
    intro hno
    have hl : fixLine2 m2 l = l := by
      rcases fixLine2_spec m2 l with he | ⟨hT, hO, v, hlk, he⟩
      · exact he
      · exfalso
        have h1 := hsub _ _ hlk
        have h2 := hno l (List.mem_cons_self l rest) hT hO
        rw [h2] at h1
        cases h1
    have ih2 := ih (fun x hx h1 h2 => hno x (List.mem_cons_of_mem l hx) h1 h2)
    simp only [fixPass2, List.map_cons] at ih2 ⊢
    rw [hl, ih2]

/-- Claim C9: `correct_mislabeling` is idempotent — applying it to its own
output returns that output unchanged.  Key facts: every line the first run
memoized or rewrote carries exactly its memo label afterwards,
qualification for the singleton-`B` rule can only shrink (labels never
become `O`), and pass 2 leaves no `O` line with a memoized word. -/
theorem C9_correct_mislabeling_idem (doc : List Line) :
    correct_mislabeling (correct_mislabeling doc) = correct_mislabeling doc := by
  have hmOKnil : MemoOK ([] : Memo) := fun p hp => absurd hp (List.not_mem_nil p)
  have hmOK : MemoOK (fixPass1 doc []).2 := fixPass1_memoOK doc [] hmOKnil
  have hQ : QDoc (fixPass1 doc []).2 (fixPass1 doc []).1 := fixPass1_QDoc doc [] hmOKnil
  have hout : correct_mislabeling doc =
      fixPass2 (fixPass1 doc []).2 (fixPass1 doc []).1 := rfl
  have hQout : QDoc (fixPass1 doc []).2 (correct_mislabeling doc) := by
    rw [hout]
    exact pass2_QDoc _ hmOK _ hQ
  have hNo : NoMemoO (fixPass1 doc []).2 (correct_mislabeling doc) := by
    rw [hout]
    exact pass2_NoMemoO _ hmOK _
  have hsub0 : MemoSub [] (fixPass1 doc []).2 := by
    intro k v h
    simp [memoLookup] at h
  obtain ⟨h1, hsubf⟩ := pass1_id (fixPass1 doc []).2 (correct_mislabeling doc) [] hsub0 hQout
  conv_lhs => rw [correct_mislabeling]
  rw [h1]
  exact pass2_id _ _ hsubf _ hNo

/-- Witness for C9 at a concrete document exercising the memo (an `S`
line, a conflicting later `S` line, a singleton `B` line and an `O`
occurrence of a memoized word). -/
theorem C9_correct_mislabeling_witness :
    correct_mislabeling (correct_mislabeling
      [lit "foo S-A", lit "bar B-X", lit "y O", lit "foo S-B", lit "foo O"]) =
    correct_mislabeling
      [lit "foo S-A", lit "bar B-X", lit "y O", lit "foo S-B", lit "foo O"] :=
  C9_correct_mislabeling_idem _

end TINER
